import Mathlib

/-!
# go-bls: hash utilities (`util.go`) and the BLS scheme layer

A shallow embedding of `util.go` (`RandomHash`, `RandomHashes`, `SortHashes`,
`quicksort`, `UniqueHashes`) and, for the scheme operations, whose source file is
not among the sources (only their callers in `bls_test.go` are), a model written from
the specification.

Conventions of the embedding:

* a Go `int` index is an `Int`; the lists handled here are far shorter than
  `2^62`, so `l + r` never wraps and no `% 2^64` is needed;
* a slice `[]common.Hash` is a `List Hash`; an indexing expression `hashes[i]`
  outside `0 ≤ i < len(hashes)` is the Go run-time panic, `Fault.indexOutOfRange`;
* every conditional `for` loop and every recursive call consumes one unit of fuel, and
  running out of it is the distinguished fault `Fault.outOfFuel`, so that termination
  is a theorem about the embedding and not an assumption of it; a `for ... range` loop
  is bounded by the length it ranges over;
* `make([]common.Hash, n)` with an `n` that comes from the caller panics for a negative
  `n` and for an `n` whose bytes exceed the allocation limit `maxAlloc` of the Go
  runtime, which is a parameter; in `UniqueHashes` the length is that of an existing
  slice of hashes, which is within the limit;
* the run-time panics of Go are part of the embedding; the exhaustion of memory or of
  the stack, a fatal error of the runtime and not a panic, is not.
-/

namespace Bls

/-! ## Data model -/

/-- The constant `common.HashLength`. -/
abbrev HashLength : Nat := 32

/-- A byte. -/
abbrev Byte := Fin 256

/-- The type `common.Hash`, an array of `HashLength` bytes. -/
structure Hash where
  bytes : List Byte
  size_eq : bytes.length = HashLength
deriving DecidableEq

/-- The zero value of `common.Hash` (what `make` fills a fresh slice with). -/
def Hash.zero : Hash := ⟨List.replicate HashLength 0, by simp⟩

instance : Inhabited Hash := ⟨Hash.zero⟩

/-- The method `Hash.Big`: the bytes read as an unsigned big-endian integer. -/
def Hash.Big (h : Hash) : Nat :=
  h.bytes.foldl (fun acc b => acc * 256 + b.val) 0

/-- The method `big.Int.Cmp` on non-negative integers: `-1`, `0` or `+1`. -/
def Cmp (x y : Nat) : Int :=
  if x < y then -1 else if x = y then 0 else 1

/-- The function `common.BytesToHash`: keep the last `HashLength` bytes of the
input and left-pad with zeros. -/
def BytesToHash (b : List Byte) : Hash :=
  let b1 := b.drop (b.length - HashLength)
  ⟨List.replicate (HashLength - b1.length) 0 ++ b1, by
    simp only [List.length_append, List.length_replicate, List.length_drop, b1, HashLength]
    omega⟩

/-- Ways in which a run of the embedded code can fail to return. -/
inductive Fault where
  | indexOutOfRange
  | nilDereference
  | makeSliceLenOutOfRange
  | outOfFuel
deriving DecidableEq, Repr

instance instDecidableEqExcept {ε α : Type} [DecidableEq ε] [DecidableEq α] :
    DecidableEq (Except ε α)
  | .ok a, .ok b =>
    if h : a = b then isTrue (by rw [h]) else isFalse (by intro e; cases e; exact h rfl)
  | .error a, .error b =>
    if h : a = b then isTrue (by rw [h]) else isFalse (by intro e; cases e; exact h rfl)
  | .ok _, .error _ => isFalse (by intro e; cases e)
  | .error _, .ok _ => isFalse (by intro e; cases e)

/-- The read `hashes[i]` with Go's bounds check. -/
def readAt (hashes : List Hash) (i : Int) : Except Fault Hash :=
  if 0 ≤ i then
    match hashes[i.toNat]? with
    | some h => pure h
    | none => throw Fault.indexOutOfRange
  else throw Fault.indexOutOfRange

/-- The write `hashes[i] = h` with Go's bounds check. -/
def writeAt (hashes : List Hash) (i : Int) (h : Hash) : Except Fault (List Hash) :=
  if 0 ≤ i ∧ i.toNat < hashes.length then pure (hashes.set i.toNat h)
  else throw Fault.indexOutOfRange

/-! ## `SortHashes` and `quicksort` -/

/-- The loop `for hashes[i].Big().Cmp(pivot) == -1 { i++ }`; returns the final `i`. -/
def scanUp (hashes : List Hash) (pivot : Nat) : Nat → Int → Except Fault Int
  | 0, _ => throw Fault.outOfFuel
  | fuel + 1, i => do
    let h ← readAt hashes i
    if Cmp h.Big pivot = -1 then scanUp hashes pivot fuel (i + 1) else pure i

/-- The loop `for hashes[j].Big().Cmp(pivot) == 1 { j-- }`; returns the final `j`. -/
def scanDown (hashes : List Hash) (pivot : Nat) : Nat → Int → Except Fault Int
  | 0, _ => throw Fault.outOfFuel
  | fuel + 1, j => do
    let h ← readAt hashes j
    if Cmp h.Big pivot = 1 then scanDown hashes pivot fuel (j - 1) else pure j

/-- The loop `for i <= j { ... }` of `quicksort`; returns the slice and the final
`i` and `j`. -/
def partitionLoop (pivot : Nat) :
    Nat → List Hash → Int → Int → Except Fault (List Hash × Int × Int)
  | 0, _, _, _ => throw Fault.outOfFuel
  | fuel + 1, hashes, i, j =>
    if i ≤ j then do
      let i ← scanUp hashes pivot fuel i
      let j ← scanDown hashes pivot fuel j
      if i ≤ j then do
        let tmp ← readAt hashes i
        let hj ← readAt hashes j
        let hashes ← writeAt hashes i hj
        let hashes ← writeAt hashes j tmp
        partitionLoop pivot fuel hashes (i + 1) (j - 1)
      else
        partitionLoop pivot fuel hashes i j
    else pure (hashes, i, j)

/-- The function `quicksort(hashes, l, r)`; returns the slice after the call. -/
def quicksort : Nat → List Hash → Int → Int → Except Fault (List Hash)
  | 0, _, _, _ => throw Fault.outOfFuel
  | fuel + 1, hashes, l, r =>
    if l < r then do
      let p ← readAt hashes ((l + r).tdiv 2)
      let pivot := p.Big
      let (hashes, i, j) ← partitionLoop pivot fuel hashes l r
      let hashes ← (if l < j then quicksort fuel hashes l j else pure hashes)
      let hashes ← (if i < r then quicksort fuel hashes i r else pure hashes)
      pure hashes
    else pure hashes

/-- The function `SortHashes(hashes)`; returns the slice after the call. -/
def SortHashes (fuel : Nat) (hashes : List Hash) : Except Fault (List Hash) :=
  let n : Int := hashes.length
  quicksort fuel hashes 0 (n - 1)

/-! ## `UniqueHashes` -/

/-- The loop `for i := 0; i < n-1; i++ { ... }` of `UniqueHashes`, entered at `i`. -/
def uniqueLoop (c : List Hash) (n : Int) : Nat → Int → Except Fault Bool
  | 0, _ => throw Fault.outOfFuel
  | fuel + 1, i =>
    if i < n - 1 then do
      let x ← readAt c i
      let y ← readAt c (i + 1)
      if Cmp x.Big y.Big = 0 then pure false else uniqueLoop c n fuel (i + 1)
    else pure true

/-- The built-in `copy(dst, src)`: overwrite the first `min(len(dst), len(src))`
elements of `dst`. -/
def copySlice (dst src : List Hash) : List Hash :=
  src.take dst.length ++ dst.drop src.length

/-- The function `UniqueHashes(hashes)`. -/
def UniqueHashes (fuel : Nat) (hashes : List Hash) : Except Fault Bool := do
  let n : Int := hashes.length
  let c := List.replicate hashes.length Hash.zero
  let c := copySlice c hashes
  let c ← SortHashes fuel c
  uniqueLoop c n fuel 0

/-- A hash whose last byte is `b` and whose other bytes are zero. -/
def Hash.ofByte (b : Byte) : Hash := ⟨List.replicate 31 0 ++ [b], by simp⟩

/-! ## Specification vocabulary -/

/-- The element at index `k` (the zero hash outside the slice); used in statements only. -/
def elemAt (a : List Hash) (k : Int) : Hash := a.getD k.toNat default

/-- The sort key at index `k`: the big-endian value of the element there. -/
def keyAt (a : List Hash) (k : Int) : Nat := (elemAt a k).Big

/-- The slice after `tmp = a[i]; a[i] = a[j]; a[j] = tmp`. -/
def swapAt (a : List Hash) (i j : Int) : List Hash :=
  (a.set i.toNat (elemAt a j)).set j.toNat (elemAt a i)

/-- What a run on the index range `l..r` keeps of the slice `a0` it started from: the
length, the elements as a multiset, every element outside the range, and every
property shared by all elements of the range. -/
structure Frame (a0 a : List Hash) (l r : Int) : Prop where
  len : a.length = a0.length
  perm : a.Perm a0
  out : ∀ k : Int, 0 ≤ k → (k < l ∨ r < k) → elemAt a k = elemAt a0 k
  pres : ∀ P : Hash → Prop, (∀ k, l ≤ k → k ≤ r → P (elemAt a0 k)) →
    ∀ k, l ≤ k → k ≤ r → P (elemAt a k)

/-- Invariant of the partition loop of `quicksort` at its head, for the range `l..r`,
pivot value `p` and loop variables `i`, `j`. -/
structure PartInv (a0 a : List Hash) (l r : Int) (p : Nat) (i j : Int) : Prop where
  frame : Frame a0 a l r
  li : l ≤ i
  jr : j ≤ r
  left : ∀ k, l ≤ k → k < i → keyAt a k ≤ p
  right : ∀ k, j < k → k ≤ r → p ≤ keyAt a k
  sent : i ≤ j → (∃ k, i ≤ k ∧ k ≤ r ∧ p ≤ keyAt a k) ∧ (∃ k, l ≤ k ∧ k ≤ j ∧ keyAt a k ≤ p)
  piv : (i = l ∨ j = r) → ∃ k, i ≤ k ∧ k ≤ j ∧ keyAt a k = p

/-- The range `l..r` of `a` is in non-decreasing key order. -/
def SortedOn (a : List Hash) (l r : Int) : Prop :=
  ∀ k1 k2 : Int, l ≤ k1 → k1 ≤ k2 → k2 ≤ r → keyAt a k1 ≤ keyAt a k2

/-! ## `quicksort` with a record of the indices it accesses

The same code as above, each function returning in addition the list of the indices
of `hashes` it read or wrote, in the order of the accesses. -/

/-- The loop of `scanUp`, with the indices it reads. -/
def scanUpT (hashes : List Hash) (pivot : Nat) : Nat → Int → Except Fault (Int × List Int)
  | 0, _ => throw Fault.outOfFuel
  | fuel + 1, i => do
    let h ← readAt hashes i
    if Cmp h.Big pivot = -1 then do
      let res ← scanUpT hashes pivot fuel (i + 1)
      pure (res.1, i :: res.2)
    else pure (i, [i])

/-- The loop of `scanDown`, with the indices it reads. -/
def scanDownT (hashes : List Hash) (pivot : Nat) : Nat → Int → Except Fault (Int × List Int)
  | 0, _ => throw Fault.outOfFuel
  | fuel + 1, j => do
    let h ← readAt hashes j
    if Cmp h.Big pivot = 1 then do
      let res ← scanDownT hashes pivot fuel (j - 1)
      pure (res.1, j :: res.2)
    else pure (j, [j])

/-- The loop of `partitionLoop`, with the indices it reads and writes: those of the two
scans, then `i`, `j` (the reads of the swap) and `i`, `j` (its writes). -/
def partitionLoopT (pivot : Nat) :
    Nat → List Hash → Int → Int → Except Fault ((List Hash × Int × Int) × List Int)
  | 0, _, _, _ => throw Fault.outOfFuel
  | fuel + 1, hashes, i, j =>
    if i ≤ j then do
      let ri ← scanUpT hashes pivot fuel i
      let rj ← scanDownT hashes pivot fuel j
      if ri.1 ≤ rj.1 then do
        let tmp ← readAt hashes ri.1
        let hj ← readAt hashes rj.1
        let hashes ← writeAt hashes ri.1 hj
        let hashes ← writeAt hashes rj.1 tmp
        let res ← partitionLoopT pivot fuel hashes (ri.1 + 1) (rj.1 - 1)
        pure (res.1, ri.2 ++ rj.2 ++ [ri.1, rj.1, ri.1, rj.1] ++ res.2)
      else do
        let res ← partitionLoopT pivot fuel hashes ri.1 rj.1
        pure (res.1, ri.2 ++ rj.2 ++ res.2)
    else pure ((hashes, i, j), [])

/-- The function `quicksort`, with the indices it reads and writes, those of its
recursive calls included. -/
def quicksortT : Nat → List Hash → Int → Int → Except Fault (List Hash × List Int)
  | 0, _, _, _ => throw Fault.outOfFuel
  | fuel + 1, hashes, l, r =>
    if l < r then do
      let p ← readAt hashes ((l + r).tdiv 2)
      let pivot := p.Big
      let part ← partitionLoopT pivot fuel hashes l r
      let left ← (if l < part.1.2.2 then quicksortT fuel part.1.1 l part.1.2.2
        else pure (part.1.1, []))
      let right ← (if part.1.2.1 < r then quicksortT fuel left.1 part.1.2.1 r
        else pure (left.1, []))
      pure (right.1, [(l + r).tdiv 2] ++ part.2 ++ left.2 ++ right.2)
    else pure (hashes, [])

/-- The function `SortHashes`, with the indices it reads and writes. -/
def SortHashesT (fuel : Nat) (hashes : List Hash) : Except Fault (List Hash × List Int) :=
  let n : Int := hashes.length
  quicksortT fuel hashes 0 (n - 1)

/-! ## `UniqueHashes` on a heap

The caller of `UniqueHashes` keeps its own slice; what the call does to it is only
visible once slices are references into a store of backing arrays. -/

/-- The store of backing arrays; an array is named by its position. -/
abbrev Heap := List (List Hash)

/-- A slice value: a window `off .. off + len` of the backing array `arr`. -/
structure Slice where
  arr : Nat
  off : Nat
  len : Nat
deriving DecidableEq

/-- The elements a slice denotes in a heap. -/
def Heap.load (hp : Heap) (s : Slice) : List Hash :=
  ((hp.getD s.arr []).drop s.off).take s.len

/-- The built-in `make([]common.Hash, n)`: a fresh zeroed backing array and the slice
covering it. -/
def Heap.make (hp : Heap) (n : Nat) : Heap × Slice :=
  (hp ++ [List.replicate n Hash.zero], ⟨hp.length, 0, n⟩)

/-- Overwrite the window of a slice with `vals` (as many elements as the window holds). -/
def Heap.store (hp : Heap) (s : Slice) (vals : List Hash) : Heap :=
  let a := hp.getD s.arr []
  hp.set s.arr (a.take s.off ++ (vals.take s.len ++ a.drop (s.off + (vals.take s.len).length)))

/-- The function `UniqueHashes(hashes)` run on a heap, `hashes` being the caller's
slice; returns the result and the heap after the call. The in-place `SortHashes(c)`
writes its result through `c`. -/
def UniqueHashesHeap (fuel : Nat) (hp : Heap) (hashes : Slice) : Except Fault (Bool × Heap) := do
  let n : Int := (hp.load hashes).length
  let (hp, c) := hp.make (hp.load hashes).length
  let hp := hp.store c (copySlice (hp.load c) (hp.load hashes))
  let sorted ← SortHashes fuel (hp.load c)
  let hp := hp.store c sorted
  let b ← uniqueLoop (hp.load c) n fuel 0
  pure (b, hp)

/-! ## `RandomHash` and `RandomHashes` -/

/-- An error value returned by `rand.Read`. -/
structure RandError where
  code : Nat
deriving DecidableEq

/-- The secure random source: what the `k`-th call of `rand.Read` on a buffer of
`HashLength` bytes does, either fill the buffer with the bytes given or fail. -/
abbrev RandSource := Nat → Except RandError { bs : List Byte // bs.length = HashLength }

/-- The function `RandomHash()`, with the number `k` of draws made so far; returns the
pointer (`none` is `nil`), the error (`none` is `nil`) and the new number of draws. -/
def RandomHash (src : RandSource) (k : Nat) : (Option Hash × Option RandError) × Nat :=
  match src k with
  | .error err => ((none, some err), k + 1)
  | .ok bytes => ((some (BytesToHash bytes.val), none), k + 1)

/-- The loop `for i := range hashes { ... }` of `RandomHashes`, with `todo` iterations
left; returns the slice (`none` is `nil`) and the error. -/
def randomHashesLoop (src : RandSource) :
    Nat → Int → List Hash → Nat → Except Fault ((Option (List Hash) × Option RandError) × Nat)
  | 0, _, hashes, k => pure ((some hashes, none), k)
  | todo + 1, i, hashes, k =>
    match RandomHash src k with
    | ((ptr, err), k) =>
      match ptr with
      | none => throw Fault.nilDereference
      | some h => do
        let hashes ← writeAt hashes i h
        if err.isSome then pure ((none, err), k)
        else randomHashesLoop src todo (i + 1) hashes k

/-- The allocation limit `maxAlloc` of the Go runtime on 64-bit Linux, in bytes. -/
def maxAlloc64 : Nat := 2 ^ 48

/-- The built-in `make([]common.Hash, n)` for a length given by the caller: a zeroed
slice of `n` hashes, or the run-time panic `makeslice: len out of range` when `n` is
negative or the `n * HashLength` bytes exceed the allocation limit `maxAlloc` of the
runtime. -/
def makeHashes (maxAlloc : Nat) (n : Int) : Except Fault (List Hash) :=
  if n < 0 ∨ (maxAlloc : Int) < n * HashLength then throw Fault.makeSliceLenOutOfRange
  else pure (List.replicate n.toNat Hash.zero)

/-- The function `RandomHashes(n)`, started after `k` draws, on a runtime with the
allocation limit `maxAlloc`. -/
def RandomHashes (maxAlloc : Nat) (src : RandSource) (n : Int) (k : Nat) :
    Except Fault ((Option (List Hash) × Option RandError) × Nat) := do
  let hashes ← makeHashes maxAlloc n
  randomHashesLoop src hashes.length 0 hashes k

/-- A random source whose every draw succeeds: the `k`-th draw delivers `HashLength`
bytes of value `k mod 256`. -/
def steadySource : RandSource :=
  fun k => .ok ⟨List.replicate HashLength ⟨k % 256, Nat.mod_lt _ (by decide)⟩, by simp⟩

/-- A random source whose every draw fails. -/
def failingSource : RandSource := fun _ => .error ⟨5⟩

/-! ## The scheme layer

The source file of the scheme operations (`GenKeys`, `GenKeyShares`, `Sign`, `Verify`,
`Aggregate`, `AggregateVerify`, `Recover`) is not among the sources: only their
callers in `bls_test.go` are. They are modelled from the specification (§3, §4, §6,
§7), over an abstract pairing engine. -/

/-- Modelled from the spec: the error taxonomy of §7, missing with the scheme's source
file. `panicked` is a Go run-time panic of a utility reaching the caller. -/
inductive SchemeError where
  | RandomnessError
  | InvalidThresholdError
  | InvalidKeyError
  | DeserializationError
  | LengthMismatchError
  | DuplicateMessageError
  | InvalidShareSetError
  | panicked (f : Fault)
deriving DecidableEq

/-- Modelled from the spec: the `PrivateKey` of §3, missing with the scheme's source
file: a scalar, kept as the natural number its key material encodes. -/
structure PrivateKey where
  scalar : Nat
deriving DecidableEq

/-- Modelled from the spec: the `System` of §3 together with the Pairing Engine
interface of §6, missing with the scheme's source file. `q` is the group order, `G1`,
`G2`, `GT` the groups (`G1`, `G2` written additively with `ScalarMul` as `•`, `GT`
multiplicatively), the scalars are the field `ZMod q`; the laws are the ones the
specification asks of the engine: a prime order, bilinearity of the pairing and
`Deserialize` undoing `Serialize`. -/
structure System (q : Nat) (G1 G2 GT : Type) [AddCommGroup G1] [Module (ZMod q) G1]
    [AddCommGroup G2] [Module (ZMod q) G2] [CommGroup GT] where
  order_prime : Nat.Prime q
  generator : G2
  pairing : G1 → G2 → GT
  hashToGroup : Hash → G1
  serialize : G1 → List Byte
  deserialize : List Byte → Option G1
  pairing_add : ∀ (x y : G1) (z : G2), pairing (x + y) z = pairing x z * pairing y z
  pairing_smul : ∀ (a : ZMod q) (x : G1) (z : G2), pairing (a • x) z = pairing x (a • z)
  deserialize_serialize : ∀ x : G1, deserialize (serialize x) = some x

/-- All the values of a list of optional values, or `none` if one is missing. -/
def allSome {α : Type} : List (Option α) → Option (List α)
  | [] => some []
  | none :: _ => none
  | some x :: xs => (allSome xs).map (fun l => x :: l)

/-- Modelled from the spec: the polynomial `f(x) = a_0 + a_1 x + ... + a_{t-1} x^{t-1}`
of §4.1 evaluated at `x`, the coefficients given lowest first. -/
def evalPoly {q : Nat} : List (ZMod q) → ZMod q → ZMod q
  | [], _ => 0
  | a :: as, x => a + x * evalPoly as x

/-- Modelled from the spec: the Lagrange coefficient `λ_i = ∏_{j∈I, j≠i} (0 - j) / (i - j)`
of §4.4 over the scalar field, `none` when a denominator is zero (an index repeats). -/
def lagrangeCoeff (q : Nat) (ids : List Nat) (i : Nat) : Option (ZMod q) :=
  let others := ids.erase i
  if others.any (fun (j : Nat) => decide ((i : ZMod q) - (j : ZMod q) = 0)) then none
  else some ((others.map (fun (j : Nat) => (0 - (j : ZMod q)) * ((i : ZMod q) - (j : ZMod q))⁻¹)).prod)

section Scheme

variable {q : Nat} {G1 G2 GT : Type} [AddCommGroup G1] [Module (ZMod q) G1]
  [AddCommGroup G2] [Module (ZMod q) G2] [CommGroup GT] [DecidableEq GT]

/-- Modelled from the spec: `GenerateKeyPair(system)` of §4.1 (`GenKeys` in the tests),
missing with the scheme's source file. `rnd` is what the secure generator delivers
(`none`: unavailable); the scalar drawn is `x` in `[1, order-1]`, the private key is `x`
and the public key `g^x`. -/
def GenerateKeyPair (sys : System q G1 G2 GT) (rnd : Option Nat) :
    Except SchemeError (G2 × PrivateKey) :=
  match rnd with
  | none => throw SchemeError.RandomnessError
  | some r =>
    let x := 1 + r % (q - 1)
    pure ((x : ZMod q) • sys.generator, ⟨x⟩)

/-- Modelled from the spec: `Sign(hash, privateKeyOrShare)` of §4.2, missing with the
scheme's source file: the serialized `H(hash)^{scalar}`, or `InvalidKeyError` for a
scalar outside the field of the group order. -/
def Sign (sys : System q G1 G2 GT) (hash : Hash) (key : PrivateKey) :
    Except SchemeError (List Byte) :=
  if key.scalar < q then
    pure (sys.serialize ((key.scalar : ZMod q) • sys.hashToGroup hash))
  else throw SchemeError.InvalidKeyError

/-- Modelled from the spec: `Verify(signature, hash, publicKey)` of §4.3, missing with
the scheme's source file: `e(S, g) == e(H(hash), publicKey)`, a malformed signature
being an error. -/
def Verify (sys : System q G1 G2 GT) (signature : List Byte) (hash : Hash) (publicKey : G2) :
    Except SchemeError Bool :=
  match sys.deserialize signature with
  | none => throw SchemeError.DeserializationError
  | some S =>
    pure (decide (sys.pairing S sys.generator = sys.pairing (sys.hashToGroup hash) publicKey))

/-- Modelled from the spec: the step of `Aggregate` and `Recover` (§4.3, §4.4), missing
with the scheme's source file, that deserializes every signature of a list and fails
on the first malformed one. -/
def deserializeAll (sys : System q G1 G2 GT) : List (List Byte) → Except SchemeError (List G1)
  | [] => pure []
  | s :: rest =>
    match sys.deserialize s with
    | none => throw SchemeError.DeserializationError
    | some S => do
      let pts ← deserializeAll sys rest
      pure (S :: pts)

/-- Modelled from the spec: `Aggregate(signatures, system)` of §4.3, missing with the
scheme's source file: the serialized sum of all signature points. -/
def Aggregate (sys : System q G1 G2 GT) (signatures : List (List Byte)) :
    Except SchemeError (List Byte) := do
  let pts ← deserializeAll sys signatures
  pure (sys.serialize pts.sum)

/-- Modelled from the spec: `AggregateVerify(aggregate, hashes, publicKeys)` of §4.3,
missing with the scheme's source file: the length check, the rejection of a hash list
that `UniqueHashes` (of `util.go`) does not report unique, then
`e(S_agg, g) == ∏_i e(H(hash_i), publicKey_i)`. -/
def AggregateVerify (sys : System q G1 G2 GT) (aggregate : List Byte) (hashes : List Hash)
    (publicKeys : List G2) : Except SchemeError Bool :=
  if hashes.length ≠ publicKeys.length then throw SchemeError.LengthMismatchError
  else
    match UniqueHashes (3 * hashes.length + 5) hashes with
    | .error f => throw (SchemeError.panicked f)
    | .ok false => throw SchemeError.DuplicateMessageError
    | .ok true =>
      match sys.deserialize aggregate with
      | none => throw SchemeError.DeserializationError
      | some S =>
        pure (decide (sys.pairing S sys.generator =
          (List.zipWith (fun h pk => sys.pairing (sys.hashToGroup h) pk) hashes publicKeys).prod))

/-- Modelled from the spec: `GenerateKeyShares(t, n, system)` of §4.1 (`GenKeyShares` in
the tests), missing with the scheme's source file. `rnd k` is what the secure generator
delivers for the `k`-th coefficient. Returns the group public key, the member public
keys, the group secret and the member secrets, member `i` of `1..n` at position
`i - 1` of the two lists (the tests read them with positions counted from `0`). -/
def GenerateKeyShares (sys : System q G1 G2 GT) (t n : Nat) (rnd : Nat → Option Nat) :
    Except SchemeError (G2 × List G2 × PrivateKey × List PrivateKey) :=
  if t < 1 ∨ n < t then throw SchemeError.InvalidThresholdError
  else
    match allSome ((List.range t).map rnd) with
    | none => throw SchemeError.RandomnessError
    | some rs =>
      let coeffs : List (ZMod q) := rs.map (fun (r : Nat) => (r : ZMod q))
      let a0 : ZMod q := coeffs.headD 0
      let f : Nat → ZMod q := fun i => evalPoly coeffs (i : ZMod q)
      pure (a0 • sys.generator,
        (List.range n).map (fun k => f (k + 1) • sys.generator),
        ⟨a0.val⟩,
        (List.range n).map (fun k => ⟨(f (k + 1)).val⟩))

/-- Modelled from the spec: `Recover(signatures, memberIds, system)` of §4.4, missing
with the scheme's source file: `S = ∏_{i∈I} (S_i)^{λ_i}` (a sum of scalar multiples in
additive writing), serialized. The caller in `bls_test.go` passes as `memberIds` the
positions, counted from `0`, at which it reads `memberSecrets`; the member at position
`id` is member `id + 1` of §3, so the index set `I` of the Lagrange coefficients is
`{id + 1}`. -/
def Recover (sys : System q G1 G2 GT) (signatures : List (List Byte)) (memberIds : List Nat) :
    Except SchemeError (List Byte) :=
  if signatures.length ≠ memberIds.length then throw SchemeError.LengthMismatchError
  else
    let indices := memberIds.map (fun (id : Nat) => id + 1)
    match allSome (indices.map (lagrangeCoeff q indices)) with
    | none => throw SchemeError.InvalidShareSetError
    | some lams => do
      let pts ← deserializeAll sys signatures
      pure (sys.serialize (List.zipWith (fun (lam : ZMod q) (S : G1) => lam • S) lams pts).sum)

/-- The loop of the tests that generates one key pair per draw. -/
def genKeysAll (sys : System q G1 G2 GT) : List (Option Nat) →
    Except SchemeError (List (G2 × PrivateKey))
  | [] => pure []
  | r :: rs => do
    let kp ← GenerateKeyPair sys r
    let rest ← genKeysAll sys rs
    pure (kp :: rest)

/-- The loop of the tests that signs the `i`-th hash with the `i`-th secret. -/
def signAll (sys : System q G1 G2 GT) : List Hash → List PrivateKey →
    Except SchemeError (List (List Byte))
  | h :: hs, k :: ks => do
    let s ← Sign sys h k
    let rest ← signAll sys hs ks
    pure (s :: rest)
  | _, _ => pure []

end Scheme

/-- A small System for examples: a prime order `p ≤ 256`, all three groups the integers
modulo `p`, `e(x, y) = x * y` (in additive writing of `GT`), generator `1`, one byte per
element. -/
def toySystemOf (p : Nat) (hp : p.Prime) (hlt : p ≤ 256) :
    System p (ZMod p) (ZMod p) (Multiplicative (ZMod p)) :=
  haveI : NeZero p := ⟨hp.ne_zero⟩
  { order_prime := hp
    generator := 1
    pairing := fun x y => Multiplicative.ofAdd (x * y)
    hashToGroup := fun h => (h.Big : ZMod p) + 1
    serialize := fun x => [⟨x.val, lt_of_lt_of_le (ZMod.val_lt x) hlt⟩]
    deserialize := fun bs =>
      match bs with
      | [b] => if b.val < p then some (b.val : ZMod p) else none
      | _ => none
    pairing_add := by
      intro x y z
      show Multiplicative.ofAdd ((x + y) * z) =
        Multiplicative.ofAdd (x * z) * Multiplicative.ofAdd (y * z)
      rw [add_mul, ofAdd_add]
    pairing_smul := by
      intro a x z
      show Multiplicative.ofAdd (a * x * z) = Multiplicative.ofAdd (x * (a * z))
      rw [mul_assoc, mul_left_comm]
    deserialize_serialize := by
      intro x
      simp [ZMod.val_lt x] }

/-- The example System of order `23`. -/
def toySystem : System 23 (ZMod 23) (ZMod 23) (Multiplicative (ZMod 23)) :=
  toySystemOf 23 (by norm_num) (by norm_num)

/-! ## Basic facts -/

theorem Cmp_eq_neg_one (x y : Nat) : Cmp x y = -1 ↔ x < y := by
  unfold Cmp; split_ifs <;> simp_all

theorem Cmp_eq_one (x y : Nat) : Cmp x y = 1 ↔ y < x := by
  unfold Cmp; split_ifs <;> simp_all <;> omega

theorem Cmp_eq_zero (x y : Nat) : Cmp x y = 0 ↔ x = y := by
  unfold Cmp; split_ifs <;> simp <;> omega

theorem ok_bind {ε α β : Type} (x : α) (f : α → Except ε β) : (Except.ok x >>= f) = f x :=
  rfl

theorem readAt_ok (a : List Hash) (k : Int) (h0 : 0 ≤ k) (h1 : k < a.length) :
    readAt a k = .ok (elemAt a k) := by
  have hk : k.toNat < a.length := by omega
  simp [readAt, elemAt, h0, List.getElem?_eq_getElem hk, List.getD_eq_getElem _ _ hk]
  rfl

theorem writeAt_ok (a : List Hash) (k : Int) (h : Hash) (h0 : 0 ≤ k) (h1 : k < a.length) :
    writeAt a k h = .ok (a.set k.toNat h) := by
  have hk : k.toNat < a.length := by omega
  simp [writeAt, h0, hk]
  rfl

theorem elemAt_set (a : List Hash) (i k : Int) (h : Hash) (hi : 0 ≤ i) (hk : 0 ≤ k)
    (hlen : i < a.length) :
    elemAt (a.set i.toNat h) k = if k = i then h else elemAt a k := by
  unfold elemAt
  by_cases hki : k = i
  · subst hki
    have : k.toNat < a.length := by omega
    simp [List.getD_eq_getElem?_getD, List.getElem?_set, this]
  · have : i.toNat ≠ k.toNat := by omega
    simp [List.getD_eq_getElem?_getD, List.getElem?_set, this, hki]

theorem swap_perm {α : Type} [DecidableEq α] (as : List α) (i j : Nat) (hi : i < as.length)
    (hj : j < as.length) : ((as.set i as[j]).set j as[i]).Perm as := by
  rw [List.perm_iff_count]
  intro b
  have h1 := List.count_pos_iff.mpr (List.getElem_mem hi)
  have h2 := List.count_pos_iff.mpr (List.getElem_mem hj)
  rw [List.count_set _ _ _ _ (by simpa using hj), List.count_set _ _ _ _ hi]
  simp only [List.getElem_set]
  by_cases hij : i = j
  · subst hij
    by_cases hb : as[i] = b
    · subst hb; simp
    · simp [hb]
  · by_cases hb : as[i] = b <;> by_cases hb2 : as[j] = b <;> simp [hij, hb, hb2] <;>
      first | omega | (subst hb; omega)

theorem length_swapAt (a : List Hash) (i j : Int) : (swapAt a i j).length = a.length := by
  simp [swapAt]

theorem swapAt_perm (a : List Hash) (i j : Int) (_hi : 0 ≤ i) (hi1 : i < a.length)
    (_hj : 0 ≤ j) (hj1 : j < a.length) : (swapAt a i j).Perm a := by
  have h1 : i.toNat < a.length := by omega
  have h2 : j.toNat < a.length := by omega
  have := swap_perm a i.toNat j.toNat h1 h2
  simpa [swapAt, elemAt, List.getElem?_eq_getElem h1, List.getElem?_eq_getElem h2] using this

theorem elemAt_swapAt (a : List Hash) (i j k : Int) (hi : 0 ≤ i) (hi1 : i < a.length)
    (hj : 0 ≤ j) (hj1 : j < a.length) (hk : 0 ≤ k) :
    elemAt (swapAt a i j) k =
      if k = j then elemAt a i else if k = i then elemAt a j else elemAt a k := by
  unfold swapAt
  rw [elemAt_set _ j k _ hj hk (by simpa using hj1), elemAt_set _ i k _ hi hk hi1]

/-! ## The two scans -/

theorem scanUp_spec (a : List Hash) (p : Nat) (k : Int) (hk : k < a.length)
    (hp : p ≤ keyAt a k) :
    ∀ (fuel : Nat) (i : Int), 0 ≤ i → i ≤ k → (k - i).toNat + 1 ≤ fuel →
      ∃ i1, scanUp a p fuel i = .ok i1 ∧ i ≤ i1 ∧ i1 ≤ k ∧
        (∀ m, i ≤ m → m < i1 → keyAt a m < p) ∧ p ≤ keyAt a i1 := by
  intro fuel
  induction fuel with
  | zero => intro i _ _ h; omega
  | succ f ih =>
    intro i h0 hik hf
    rw [scanUp, readAt_ok a i h0 (by omega)]
    by_cases hc : Cmp (elemAt a i).Big p = -1
    · have hlt : keyAt a i < p := (Cmp_eq_neg_one _ _).mp hc
      have hne : i ≠ k := by
        rintro rfl
        omega
      obtain ⟨i1, e, h1, h2, h3, h4⟩ := ih (i + 1) (by omega) (by omega) (by omega)
      refine ⟨i1, ?_, by omega, h2, ?_, h4⟩
      · simpa [hc, bind, Except.bind] using e
      · intro m hm1 hm2
        by_cases hmi : m = i
        · subst hmi; exact hlt
        · exact h3 m (by omega) hm2
    · have hge : p ≤ keyAt a i := by
        have := (Cmp_eq_neg_one (elemAt a i).Big p).not.mp hc
        unfold keyAt; omega
      refine ⟨i, ?_, le_refl _, hik, ?_, hge⟩
      · simp [hc, bind, Except.bind, pure, Except.pure]
      · intro m hm1 hm2; omega

theorem scanDown_spec (a : List Hash) (p : Nat) (k : Int) (hk : 0 ≤ k)
    (hp : keyAt a k ≤ p) :
    ∀ (fuel : Nat) (j : Int), j < a.length → k ≤ j → (j - k).toNat + 1 ≤ fuel →
      ∃ j1, scanDown a p fuel j = .ok j1 ∧ j1 ≤ j ∧ k ≤ j1 ∧
        (∀ m, j1 < m → m ≤ j → p < keyAt a m) ∧ keyAt a j1 ≤ p := by
  intro fuel
  induction fuel with
  | zero => intro j _ _ h; omega
  | succ f ih =>
    intro j h0 hkj hf
    rw [scanDown, readAt_ok a j (by omega) h0]
    by_cases hc : Cmp (elemAt a j).Big p = 1
    · have hlt : p < keyAt a j := (Cmp_eq_one _ _).mp hc
      have hne : j ≠ k := by
        rintro rfl
        omega
      obtain ⟨j1, e, h1, h2, h3, h4⟩ := ih (j - 1) (by omega) (by omega) (by omega)
      refine ⟨j1, ?_, by omega, h2, ?_, h4⟩
      · simpa [hc, bind, Except.bind] using e
      · intro m hm1 hm2
        by_cases hmj : m = j
        · subst hmj; exact hlt
        · exact h3 m hm1 (by omega)
    · have hge : keyAt a j ≤ p := by
        have := (Cmp_eq_one (elemAt a j).Big p).not.mp hc
        unfold keyAt; omega
      refine ⟨j, ?_, le_refl _, hkj, ?_, hge⟩
      · simp [hc, bind, Except.bind, pure, Except.pure]
      · intro m hm1 hm2; omega

/-! ## The partition loop -/

theorem partInv_swap (a0 a : List Hash) (l r : Int) (p : Nat) (i j i1 j1 : Int)
    (hl : 0 ≤ l) (hr : r < a0.length) (inv : PartInv a0 a l r p i j)
    (hi1a : i ≤ i1) (hj1a : j1 ≤ j) (hij1 : i1 ≤ j1)
    (hi1c : ∀ m, i ≤ m → m < i1 → keyAt a m < p) (hi1d : p ≤ keyAt a i1)
    (hj1c : ∀ m, j1 < m → m ≤ j → p < keyAt a m) (hj1d : keyAt a j1 ≤ p) :
    PartInv a0 (swapAt a i1 j1) l r p (i1 + 1) (j1 - 1) := by
  have hlen := inv.frame.len
  have hli := inv.li
  have hjr := inv.jr
  have e : ∀ k, 0 ≤ k → elemAt (swapAt a i1 j1) k =
      if k = j1 then elemAt a i1 else if k = i1 then elemAt a j1 else elemAt a k :=
    fun k hk => elemAt_swapAt a i1 j1 k (by omega) (by omega) (by omega) (by omega) hk
  refine ⟨⟨?_, ?_, ?_, ?_⟩, by omega, by omega, ?_, ?_, ?_, ?_⟩
  · rw [length_swapAt]; exact hlen
  · exact (swapAt_perm a i1 j1 (by omega) (by omega) (by omega) (by omega)).trans inv.frame.perm
  · intro k hk hout
    rw [e k hk, if_neg (by omega), if_neg (by omega)]
    exact inv.frame.out k hk hout
  · intro P hP k hk1 hk2
    have h := inv.frame.pres P hP
    rw [e k (by omega)]
    split_ifs
    · exact h i1 (by omega) (by omega)
    · exact h j1 (by omega) (by omega)
    · exact h k hk1 hk2
  · intro k hk1 hk2
    unfold keyAt
    rw [e k (by omega)]
    split_ifs with h1 h2
    · have : i1 = j1 := by omega
      rw [this]; exact hj1d
    · exact hj1d
    · by_cases hki : k < i
      · exact inv.left k hk1 hki
      · exact le_of_lt (hi1c k (by omega) (by omega))
  · intro k hk1 hk2
    unfold keyAt
    rw [e k (by omega)]
    split_ifs with h1 h2
    · exact hi1d
    · have : i1 = j1 := by omega
      rw [← this]; exact hi1d
    · by_cases hkj : j < k
      · exact inv.right k hkj hk2
      · exact le_of_lt (hj1c k (by omega) (by omega))
  · intro h
    refine ⟨⟨j1, by omega, by omega, ?_⟩, ⟨i1, by omega, by omega, ?_⟩⟩
    · unfold keyAt
      rw [e j1 (by omega), if_pos rfl]
      exact hi1d
    · unfold keyAt
      rw [e i1 (by omega), if_neg (by omega), if_pos rfl]
      exact hj1d
  · intro h
    omega

theorem partInv_stop (a0 a : List Hash) (l r : Int) (p : Nat) (i j i1 j1 : Int)
    (inv : PartInv a0 a l r p i j)
    (hi1a : i ≤ i1) (hj1a : j1 ≤ j) (hij1 : j1 < i1)
    (hi1c : ∀ m, i ≤ m → m < i1 → keyAt a m < p)
    (hj1c : ∀ m, j1 < m → m ≤ j → p < keyAt a m) :
    PartInv a0 a l r p i1 j1 := by
  have hli := inv.li
  have hjr := inv.jr
  refine ⟨inv.frame, by omega, by omega, ?_, ?_, ?_, ?_⟩
  · intro k hk1 hk2
    by_cases hki : k < i
    · exact inv.left k hk1 hki
    · exact le_of_lt (hi1c k (by omega) hk2)
  · intro k hk1 hk2
    by_cases hkj : j < k
    · exact inv.right k hkj hk2
    · exact le_of_lt (hj1c k hk1 (by omega))
  · intro h
    omega
  · intro h
    have h2 : i = l ∨ j = r := by omega
    obtain ⟨m, hm1, hm2, hm3⟩ := inv.piv h2
    exfalso
    by_cases hmi : m < i1
    · have := hi1c m hm1 hmi
      omega
    · have := hj1c m (by omega) hm2
      omega

theorem partitionLoop_spec (a0 : List Hash) (l r : Int) (p : Nat) (hl : 0 ≤ l)
    (hr : r < a0.length) (hlr : l < r) :
    ∀ (fuel : Nat) (a : List Hash) (i j : Int), PartInv a0 a l r p i j →
      (r - l + 2).toNat + (j - i + 2).toNat ≤ fuel →
      ∃ a1 i1 j1, partitionLoop p fuel a i j = .ok (a1, i1, j1) ∧
        PartInv a0 a1 l r p i1 j1 ∧ j1 < i1 := by
  intro fuel
  induction fuel with
  | zero => intro a i j _ h; omega
  | succ f ih =>
    intro a i j inv hf
    have hlen := inv.frame.len
    have hli := inv.li
    have hjr := inv.jr
    rw [partitionLoop]
    by_cases hij : i ≤ j
    · obtain ⟨⟨ku, hku1, hku2, hku3⟩, ⟨kd, hkd1, hkd2, hkd3⟩⟩ := inv.sent hij
      obtain ⟨i1, e1, hi1a, hi1b, hi1c, hi1d⟩ :=
        scanUp_spec a p ku (by omega) hku3 f i (by omega) hku1 (by omega)
      obtain ⟨j1, e2, hj1a, hj1b, hj1c, hj1d⟩ :=
        scanDown_spec a p kd (by omega) hkd3 f j (by omega) hkd2 (by omega)
      simp only [hij, if_true, e1, e2, bind, Except.bind]
      by_cases hij1 : i1 ≤ j1
      · rw [if_pos hij1, readAt_ok a i1 (by omega) (by omega),
          readAt_ok a j1 (by omega) (by omega)]
        simp only []
        rw [writeAt_ok a i1 _ (by omega) (by omega)]
        simp only []
        rw [writeAt_ok _ j1 _ (by omega) (by simp; omega)]
        simp only []
        exact ih (swapAt a i1 j1) (i1 + 1) (j1 - 1)
          (partInv_swap a0 a l r p i j i1 j1 hl hr inv hi1a hj1a hij1 hi1c hi1d hj1c hj1d)
          (by omega)
      · rw [if_neg hij1]
        exact ih a i1 j1
          (partInv_stop a0 a l r p i j i1 j1 inv hi1a hj1a (by omega) hi1c hj1c)
          (by omega)
    · rw [if_neg hij]
      exact ⟨a, i, j, rfl, inv, by omega⟩

/-! ## `quicksort` -/

theorem Frame.refl (a : List Hash) (l r : Int) : Frame a a l r :=
  ⟨rfl, List.Perm.refl a, fun _ _ _ => rfl, fun _ h => h⟩

theorem Frame.trans_sub {a0 a1 a2 : List Hash} {l r l1 r1 : Int} (f1 : Frame a0 a1 l r)
    (f2 : Frame a1 a2 l1 r1) (hl0 : 0 ≤ l) (hl : l ≤ l1) (hr : r1 ≤ r) : Frame a0 a2 l r := by
  refine ⟨f2.len.trans f1.len, f2.perm.trans f1.perm, ?_, ?_⟩
  · intro k hk hout
    rw [f2.out k hk (by omega)]
    exact f1.out k hk hout
  · intro P hP k hk1 hk2
    have h1 := f1.pres P hP
    by_cases hin : l1 ≤ k ∧ k ≤ r1
    · exact f2.pres P (fun k1 h1a h1b => h1 k1 (by omega) (by omega)) k hin.1 hin.2
    · rw [f2.out k (by omega) (by omega)]
      exact h1 k hk1 hk2

theorem partInv_init (a : List Hash) (l r : Int) (hl : 0 ≤ l) (hlr : l < r) :
    PartInv a a l r (keyAt a ((l + r).tdiv 2)) l r := by
  have hm : (l + r).tdiv 2 = (l + r) / 2 := Int.tdiv_eq_ediv (by omega) (by norm_num)
  rw [hm]
  refine ⟨Frame.refl a l r, le_refl _, le_refl _, ?_, ?_, ?_, ?_⟩
  · intro k h1 h2; omega
  · intro k h1 h2; omega
  · intro _
    exact ⟨⟨(l + r) / 2, by omega, by omega, le_refl _⟩, ⟨(l + r) / 2, by omega, by omega, le_refl _⟩⟩
  · intro _
    exact ⟨(l + r) / 2, by omega, by omega, rfl⟩

theorem quicksort_spec :
    ∀ (fuel : Nat) (a : List Hash) (l r : Int), (l < r → 0 ≤ l ∧ r < a.length) →
      3 * (r - l).toNat + 5 ≤ fuel →
      ∃ a1, quicksort fuel a l r = .ok a1 ∧ Frame a a1 l r ∧ SortedOn a1 l r := by
  intro fuel
  induction fuel with
  | zero => intro a l r _ h; omega
  | succ f ih =>
    intro a l r hb hf
    rw [quicksort]
    by_cases hlr : l < r
    · obtain ⟨hl, hr⟩ := hb hlr
      have hm : (l + r).tdiv 2 = (l + r) / 2 := Int.tdiv_eq_ediv (by omega) (by norm_num)
      rw [if_pos hlr, readAt_ok a _ (by rw [hm]; omega) (by rw [hm]; omega)]
      obtain ⟨a1, i, j, e1, inv, hji⟩ :=
        partitionLoop_spec a l r (keyAt a ((l + r).tdiv 2)) hl hr hlr f a l r
          (partInv_init a l r hl hlr) (by omega)
      have hli := inv.li
      have hjr := inv.jr
      have hlen1 := inv.frame.len
      have hends : l < i ∧ j < r := by
        by_contra hc
        obtain ⟨m, hm1, hm2, _⟩ := inv.piv (by omega)
        omega
      obtain ⟨a2, e2, F2, S2⟩ : ∃ a2, (if l < j then quicksort f a1 l j else pure a1) = .ok a2 ∧
          Frame a1 a2 l j ∧ SortedOn a2 l j := by
        by_cases h : l < j
        · rw [if_pos h]
          exact ih a1 l j (fun _ => ⟨hl, by omega⟩) (by omega)
        · rw [if_neg h]
          refine ⟨a1, rfl, Frame.refl a1 l j, ?_⟩
          intro k1 k2 h1 h2 h3
          have : k1 = k2 := by omega
          rw [this]
      have hlen2 := F2.len
      obtain ⟨a3, e3, F3, S3⟩ : ∃ a3, (if i < r then quicksort f a2 i r else pure a2) = .ok a3 ∧
          Frame a2 a3 i r ∧ SortedOn a3 i r := by
        by_cases h : i < r
        · rw [if_pos h]
          exact ih a2 i r (fun _ => ⟨by omega, by omega⟩) (by omega)
        · rw [if_neg h]
          refine ⟨a2, rfl, Frame.refl a2 i r, ?_⟩
          intro k1 k2 h1 h2 h3
          have : k1 = k2 := by omega
          rw [this]
      refine ⟨a3, ?_, ?_, ?_⟩
      · rw [ok_bind]
        simp only [keyAt] at e1 ⊢
        rw [e1, ok_bind]
        simp only []
        rw [e2, ok_bind, e3, ok_bind]
        rfl
      · exact (inv.frame.trans_sub F2 hl (le_refl _) (by omega)).trans_sub F3 hl (by omega)
          (le_refl _)
      · have hA : ∀ k, l ≤ k → k < i → keyAt a3 k ≤ keyAt a ((l + r).tdiv 2) := by
          intro k hk1 hk2
          unfold keyAt
          rw [F3.out k (by omega) (Or.inl hk2)]
          by_cases hkj : k ≤ j
          · exact F2.pres (fun h => h.Big ≤ keyAt a ((l + r).tdiv 2))
              (fun k1 h1 h2 => inv.left k1 h1 (by omega)) k hk1 hkj
          · rw [F2.out k (by omega) (Or.inr (by omega))]
            exact inv.left k hk1 hk2
        have hB : ∀ k, l ≤ k → j < k → k ≤ r → keyAt a ((l + r).tdiv 2) ≤ keyAt a3 k := by
          intro k hk0 hk1 hk2
          unfold keyAt
          by_cases hki : i ≤ k
          · refine F3.pres (fun h => keyAt a ((l + r).tdiv 2) ≤ h.Big) ?_ k hki hk2
            intro k1 h1 h2
            rw [F2.out k1 (by omega) (Or.inr (by omega))]
            exact inv.right k1 (by omega) h2
          · rw [F3.out k (by omega) (Or.inl (by omega)),
              F2.out k (by omega) (Or.inr (by omega))]
            exact inv.right k hk1 hk2
        intro k1 k2 h1 h2 h3
        by_cases c1 : k2 ≤ j
        · have := S2 k1 k2 h1 h2 c1
          unfold keyAt at this ⊢
          rw [F3.out k1 (by omega) (Or.inl (by omega)), F3.out k2 (by omega) (Or.inl (by omega))]
          exact this
        · by_cases c2 : i ≤ k1
          · exact S3 k1 k2 c2 h2 h3
          · exact le_trans (hA k1 h1 (by omega)) (hB k2 (by omega) (by omega) h3)
    · rw [if_neg hlr]
      refine ⟨a, rfl, Frame.refl a l r, ?_⟩
      intro k1 k2 h1 h2 h3
      have : k1 = k2 := by omega
      rw [this]

theorem SortHashes_spec (fuel : Nat) (hashes : List Hash) (hf : 3 * hashes.length + 5 ≤ fuel) :
    ∃ out, SortHashes fuel hashes = .ok out ∧ Frame hashes out 0 (hashes.length - 1) ∧
      SortedOn out 0 (hashes.length - 1) := by
  unfold SortHashes
  exact quicksort_spec fuel hashes 0 (hashes.length - 1) (fun _ => ⟨le_refl _, by omega⟩)
    (by omega)

/-! ## `UniqueHashes` -/

theorem foldl_bytes_inj : ∀ (xs ys : List Byte), xs.length = ys.length → ∀ a b : Nat,
    xs.foldl (fun acc x => acc * 256 + x.val) a = ys.foldl (fun acc x => acc * 256 + x.val) b →
    a = b ∧ xs = ys := by
  intro xs
  induction xs with
  | nil =>
    intro ys hlen a b h
    cases ys with
    | nil => exact ⟨by simpa using h, rfl⟩
    | cons y ys => simp at hlen
  | cons x xs ih =>
    intro ys hlen a b h
    cases ys with
    | nil => simp at hlen
    | cons y ys =>
      simp only [List.foldl_cons] at h
      obtain ⟨h1, h2⟩ := ih ys (by simpa using hlen) _ _ h
      have hx := x.isLt
      have hy := y.isLt
      have hxy : x = y := Fin.ext (by omega)
      exact ⟨by omega, by rw [hxy, h2]⟩

theorem Big_injective (h1 h2 : Hash) (h : h1.Big = h2.Big) : h1 = h2 := by
  obtain ⟨b1, s1⟩ := h1
  obtain ⟨b2, s2⟩ := h2
  have := (foldl_bytes_inj b1 b2 (s1.trans s2.symm) 0 0 h).2
  subst this
  rfl

theorem elemAt_natCast (a : List Hash) (i : Nat) (hi : i < a.length) :
    elemAt a (i : Int) = a[i] := by
  simp [elemAt, List.getElem?_eq_getElem hi]

theorem copySlice_fresh (hashes : List Hash) :
    copySlice (List.replicate hashes.length Hash.zero) hashes = hashes := by
  simp [copySlice]

theorem uniqueLoop_spec (c : List Hash) :
    ∀ (fuel : Nat) (i : Int), 0 ≤ i → ((c.length : Int) - i).toNat + 1 ≤ fuel →
      ∃ b, uniqueLoop c c.length fuel i = .ok b ∧
        (b = true ↔ ∀ k : Int, i ≤ k → k < (c.length : Int) - 1 → keyAt c k ≠ keyAt c (k + 1)) := by
  intro fuel
  induction fuel with
  | zero => intro i _ h; omega
  | succ f ih =>
    intro i h0 hf
    rw [uniqueLoop]
    by_cases hi : i < (c.length : Int) - 1
    · rw [if_pos hi, readAt_ok c i h0 (by omega), ok_bind, readAt_ok c (i + 1) (by omega) (by omega),
        ok_bind]
      by_cases hc : Cmp (elemAt c i).Big (elemAt c (i + 1)).Big = 0
      · rw [if_pos hc]
        refine ⟨false, rfl, ?_⟩
        simp only [Bool.false_eq_true, false_iff, not_forall]
        exact ⟨i, le_refl _, hi, fun h => h ((Cmp_eq_zero _ _).mp hc)⟩
      · rw [if_neg hc]
        obtain ⟨b, e, hb⟩ := ih (i + 1) (by omega) (by omega)
        refine ⟨b, e, hb.trans ⟨?_, ?_⟩⟩
        · intro h k hk1 hk2
          by_cases hki : k = i
          · subst hki
            exact fun h2 => hc ((Cmp_eq_zero _ _).mpr h2)
          · exact h k (by omega) hk2
        · intro h k hk1 hk2
          exact h k (by omega) hk2
    · rw [if_neg hi]
      refine ⟨true, rfl, ?_⟩
      simp only [true_iff]
      intro k hk1 hk2
      omega

theorem nodup_iff_positions (hashes : List Hash) :
    hashes.Nodup ↔ ∀ (i j : Nat) (hi : i < hashes.length) (hj : j < hashes.length),
      i ≠ j → hashes[i] ≠ hashes[j] := by
  constructor
  · intro h i j hi hj hij he
    exact hij ((h.getElem_inj_iff).mp he)
  · intro h
    rw [List.nodup_iff_injective_get]
    intro x y hxy
    by_contra hne
    exact h x.val y.val x.isLt y.isLt (fun e => hne (Fin.ext e)) (by simpa using hxy)

theorem sorted_adjacent_iff_nodup (c : List Hash) (hs : SortedOn c 0 ((c.length : Int) - 1)) :
    (∀ k : Int, 0 ≤ k → k < (c.length : Int) - 1 → keyAt c k ≠ keyAt c (k + 1)) ↔ c.Nodup := by
  constructor
  · intro h
    have hstrict : ∀ (d i : Nat), i + d + 1 < c.length →
        keyAt c (i : Int) < keyAt c ((i + d + 1 : Nat) : Int) := by
      intro d i hd
      have h1 := h i (by omega) (by omega)
      have h2 := hs i (i + 1) (by omega) (by omega) (by omega)
      have h3 := hs (i + 1) ((i + d + 1 : Nat) : Int) (by omega) (by omega) (by omega)
      omega
    rw [nodup_iff_positions]
    intro i j hi hj hij he
    have hk : keyAt c (i : Int) = keyAt c (j : Int) := by
      unfold keyAt
      rw [elemAt_natCast c i hi, elemAt_natCast c j hj, he]
    rcases Nat.lt_or_gt_of_ne hij with hlt | hgt
    · have := hstrict (j - i - 1) i (by omega)
      rw [show i + (j - i - 1) + 1 = j by omega] at this
      omega
    · have := hstrict (i - j - 1) j (by omega)
      rw [show j + (i - j - 1) + 1 = i by omega] at this
      omega
  · intro h k hk1 hk2 he
    obtain ⟨n, rfl⟩ := Int.eq_ofNat_of_zero_le hk1
    have e1 : elemAt c (n : Int) = elemAt c ((n : Int) + 1) := Big_injective _ _ he
    rw [show ((n : Int) + 1) = ((n + 1 : Nat) : Int) by push_cast; rfl,
      elemAt_natCast c n (by omega), elemAt_natCast c (n + 1) (by omega)] at e1
    have := (h.getElem_inj_iff).mp e1
    omega

theorem UniqueHashes_spec (fuel : Nat) (hashes : List Hash) (hf : 3 * hashes.length + 5 ≤ fuel) :
    UniqueHashes fuel hashes = .ok (decide hashes.Nodup) := by
  obtain ⟨c, e, F, S⟩ := SortHashes_spec fuel hashes hf
  have hlen := F.len
  rw [← hlen] at S
  obtain ⟨b, e2, hb⟩ := uniqueLoop_spec c fuel 0 (le_refl _) (by omega)
  unfold UniqueHashes
  simp only [copySlice_fresh]
  rw [e, ok_bind, ← hlen, e2]
  congr 1
  rw [sorted_adjacent_iff_nodup c S, F.perm.nodup_iff] at hb
  cases b <;> simp_all

/-! ## Claims about `util.go` -/

/-- C1: for every list of hashes, `UniqueHashes` returns, and its result is `true`
exactly when no two different positions of the list hold the same hash. -/
theorem UniqueHashes_true_iff_pairwise_distinct (hashes : List Hash) (fuel : Nat)
    (hf : 3 * hashes.length + 5 ≤ fuel) :
    ∃ b, UniqueHashes fuel hashes = .ok b ∧
      (b = true ↔ ∀ (i j : Nat) (hi : i < hashes.length) (hj : j < hashes.length),
        i ≠ j → hashes[i] ≠ hashes[j]) := by
  refine ⟨decide hashes.Nodup, UniqueHashes_spec fuel hashes hf, ?_⟩
  rw [decide_eq_true_iff]
  exact nodup_iff_positions hashes

theorem UniqueHashes_true_iff_pairwise_distinct_witness :
    3 * [Hash.ofByte 2, Hash.ofByte 1].length + 5 ≤ 11 ∧
    ∃ b, UniqueHashes 11 [Hash.ofByte 2, Hash.ofByte 1] = .ok b ∧
      (b = true ↔ ∀ (i j : Nat) (hi : i < [Hash.ofByte 2, Hash.ofByte 1].length)
        (hj : j < [Hash.ofByte 2, Hash.ofByte 1].length),
        i ≠ j → [Hash.ofByte 2, Hash.ofByte 1][i] ≠ [Hash.ofByte 2, Hash.ofByte 1][j]) :=
  ⟨by decide, UniqueHashes_true_iff_pairwise_distinct [Hash.ofByte 2, Hash.ofByte 1] 11 (by decide)⟩

/-- C2: for every list of hashes, `SortHashes` returns a list that is in non-decreasing
order of the big-endian values: `Big(out[i]) ≤ Big(out[j])` for all positions `i < j`. -/
theorem SortHashes_sorted (hashes : List Hash) (fuel : Nat)
    (hf : 3 * hashes.length + 5 ≤ fuel) :
    ∃ out, SortHashes fuel hashes = .ok out ∧
      ∀ (i j : Nat) (hj : j < out.length) (hij : i < j),
        (out[i]).Big ≤ (out[j]).Big := by
  obtain ⟨out, e, F, S⟩ := SortHashes_spec fuel hashes hf
  refine ⟨out, e, ?_⟩
  intro i j hj hij
  have hlen := F.len
  have := S (i : Int) (j : Int) (by omega) (by omega) (by omega)
  unfold keyAt at this
  rwa [elemAt_natCast out i (by omega), elemAt_natCast out j hj] at this

theorem SortHashes_sorted_witness :
    3 * [Hash.ofByte 3, Hash.ofByte 1, Hash.ofByte 2].length + 5 ≤ 14 ∧
    ∃ out, SortHashes 14 [Hash.ofByte 3, Hash.ofByte 1, Hash.ofByte 2] = .ok out ∧
      ∀ (i j : Nat) (hj : j < out.length) (hij : i < j),
        (out[i]).Big ≤ (out[j]).Big :=
  ⟨by decide, SortHashes_sorted [Hash.ofByte 3, Hash.ofByte 1, Hash.ofByte 2] 14 (by decide)⟩

/-- C3: for every list of hashes, the list `SortHashes` returns is a permutation of its
input: same length, and every hash occurs as many times as in the input. -/
theorem SortHashes_perm (hashes : List Hash) (fuel : Nat)
    (hf : 3 * hashes.length + 5 ≤ fuel) :
    ∃ out, SortHashes fuel hashes = .ok out ∧ out.Perm hashes ∧
      out.length = hashes.length ∧ ∀ h : Hash, out.count h = hashes.count h := by
  obtain ⟨out, e, F, _⟩ := SortHashes_spec fuel hashes hf
  exact ⟨out, e, F.perm, F.len, fun h => F.perm.count_eq h⟩

theorem SortHashes_perm_witness :
    3 * [Hash.ofByte 3, Hash.ofByte 1, Hash.ofByte 3].length + 5 ≤ 14 ∧
    ∃ out, SortHashes 14 [Hash.ofByte 3, Hash.ofByte 1, Hash.ofByte 3] = .ok out ∧
      out.Perm [Hash.ofByte 3, Hash.ofByte 1, Hash.ofByte 3] ∧
      out.length = [Hash.ofByte 3, Hash.ofByte 1, Hash.ofByte 3].length ∧
      ∀ h : Hash, out.count h = [Hash.ofByte 3, Hash.ofByte 1, Hash.ofByte 3].count h :=
  ⟨by decide, SortHashes_perm [Hash.ofByte 3, Hash.ofByte 1, Hash.ofByte 3] 14 (by decide)⟩

theorem randomHashesLoop_crashes_after_failure (src : RandSource) :
    ∀ (m todo : Nat) (i : Int) (hashes : List Hash) (k : Nat), m < todo → 0 ≤ i →
      i + todo ≤ hashes.length → (∀ m1, m1 < m → ∃ bs, src (k + m1) = .ok bs) →
      (∃ e, src (k + m) = .error e) →
      randomHashesLoop src todo i hashes k = .error Fault.nilDereference := by
  intro m
  induction m with
  | zero =>
    intro todo i hashes k hm _ _ _ hfail
    obtain ⟨e, he⟩ := hfail
    obtain ⟨t1, rfl⟩ : ∃ t1, todo = t1 + 1 := ⟨todo - 1, by omega⟩
    rw [Nat.add_zero] at he
    simp only [randomHashesLoop, RandomHash, he]
    rfl
  | succ m ih =>
    intro todo i hashes k hm hi hlen hok hfail
    obtain ⟨t1, rfl⟩ : ∃ t1, todo = t1 + 1 := ⟨todo - 1, by omega⟩
    obtain ⟨bs, hbs⟩ := hok 0 (by omega)
    rw [Nat.add_zero] at hbs
    simp only [randomHashesLoop, RandomHash, hbs]
    rw [writeAt_ok hashes i _ hi (by push_cast at hlen; omega), ok_bind]
    simp only [Option.isSome_none, Bool.false_eq_true, if_false]
    refine ih t1 (i + 1) _ (k + 1) (by omega) (by omega)
      (by simp only [List.length_set]; push_cast at hlen ⊢; omega) ?_ ?_
    · intro m1 hm1
      have := hok (m1 + 1) (by omega)
      rwa [show k + (m1 + 1) = k + 1 + m1 by omega] at this
    · rwa [show k + (m + 1) = k + 1 + m by omega] at hfail

theorem makeHashes_ok (maxAlloc : Nat) (n : Int) (hn : 0 ≤ n)
    (hcap : n * HashLength ≤ maxAlloc) :
    makeHashes maxAlloc n = .ok (List.replicate n.toNat Hash.zero) := by
  unfold makeHashes
  rw [if_neg (by omega)]
  rfl

theorem RandomHashes_crashes_after_failure (maxAlloc : Nat) (src : RandSource) (n : Int)
    (k m : Nat) (hcap : n * HashLength ≤ maxAlloc) (hm : (m : Int) < n)
    (hok : ∀ m1, m1 < m → ∃ bs, src (k + m1) = .ok bs) (hfail : ∃ e, src (k + m) = .error e) :
    RandomHashes maxAlloc src n k = .error Fault.nilDereference := by
  unfold RandomHashes
  rw [makeHashes_ok maxAlloc n (by omega) hcap, ok_bind]
  exact randomHashesLoop_crashes_after_failure src m _ 0 _ k
    (by simp only [List.length_replicate]; omega) (le_refl _)
    (by simp only [List.length_replicate]; omega) hok hfail

/-- C4 (failing input): with a random source whose first draw fails, `RandomHashes(1)`
does not return `nil` and the error: it stops on the dereference of the nil pointer
that `RandomHash` returned, before the error is looked at. -/
theorem RandomHashes_failed_draw_nil_dereference :
    RandomHashes maxAlloc64 failingSource 1 0 = .error Fault.nilDereference := by
  rfl

theorem Heap.load_append_left (hp ys : Heap) (s : Slice) (hs : s.arr < hp.length) :
    Heap.load (hp ++ ys) s = Heap.load hp s := by
  simp [Heap.load, List.getD_eq_getElem?_getD, List.getElem?_append_left hs]

theorem Heap.load_fresh (hp : Heap) (x : List Hash) :
    Heap.load (hp ++ [x]) ⟨hp.length, 0, x.length⟩ = x := by
  simp [Heap.load, List.getD_eq_getElem?_getD]

theorem Heap.store_fresh (hp : Heap) (x vals : List Hash) (h : vals.length = x.length) :
    Heap.store (hp ++ [x]) ⟨hp.length, 0, x.length⟩ vals = hp ++ [vals] := by
  simp [Heap.store, List.getD_eq_getElem?_getD, ← h]

/-- C5: `UniqueHashes` leaves its argument unchanged. Run on a heap with the caller's
slice `hashes`, it returns the result of the check and a heap in which `hashes`, and
every other slice that existed before the call, denotes the same elements in the same
order as before: the sort works on the fresh copy only. -/
theorem UniqueHashesHeap_leaves_argument (hp : Heap) (hashes : Slice) (fuel : Nat)
    (hv : hashes.arr < hp.length) (hf : 3 * (hp.load hashes).length + 5 ≤ fuel) :
    ∃ b hp1, UniqueHashesHeap fuel hp hashes = .ok (b, hp1) ∧
      hp1.load hashes = hp.load hashes ∧
      (∀ s : Slice, s.arr < hp.length → hp1.load s = hp.load s) ∧
      UniqueHashes fuel (hp.load hashes) = .ok b := by
  obtain ⟨out, e, F, _⟩ := SortHashes_spec fuel (hp.load hashes) hf
  have hlen := F.len
  have hu := UniqueHashes_spec fuel (hp.load hashes) hf
  have hu2 := hu
  unfold UniqueHashes at hu2
  simp only [copySlice_fresh] at hu2
  rw [e, ok_bind] at hu2
  have hz : (List.replicate (hp.load hashes).length Hash.zero).length = (hp.load hashes).length :=
    List.length_replicate _ _
  have e1 : Heap.load (hp ++ [List.replicate (hp.load hashes).length Hash.zero])
      ⟨hp.length, 0, (hp.load hashes).length⟩ =
      List.replicate (hp.load hashes).length Hash.zero := by
    have := Heap.load_fresh hp (List.replicate (hp.load hashes).length Hash.zero)
    rwa [hz] at this
  have e2 : Heap.store (hp ++ [List.replicate (hp.load hashes).length Hash.zero])
      ⟨hp.length, 0, (hp.load hashes).length⟩ (hp.load hashes) = hp ++ [hp.load hashes] := by
    have := Heap.store_fresh hp (List.replicate (hp.load hashes).length Hash.zero)
      (hp.load hashes) hz.symm
    rwa [hz] at this
  have e3 : Heap.load (hp ++ [hp.load hashes]) ⟨hp.length, 0, (hp.load hashes).length⟩ =
      hp.load hashes := Heap.load_fresh hp (hp.load hashes)
  have e4 : Heap.store (hp ++ [hp.load hashes]) ⟨hp.length, 0, (hp.load hashes).length⟩ out =
      hp ++ [out] := Heap.store_fresh hp (hp.load hashes) out hlen
  have e5 : Heap.load (hp ++ [out]) ⟨hp.length, 0, (hp.load hashes).length⟩ = out := by
    have := Heap.load_fresh hp out
    rwa [hlen] at this
  refine ⟨decide (hp.load hashes).Nodup, hp ++ [out], ?_, Heap.load_append_left hp _ hashes hv,
    fun s hs => Heap.load_append_left hp _ s hs, hu⟩
  unfold UniqueHashesHeap
  simp only [Heap.make]
  rw [e1, Heap.load_append_left hp _ hashes hv, copySlice_fresh, e2, e3, e, ok_bind]
  rw [e4, e5, hu2]
  rfl

theorem UniqueHashesHeap_leaves_argument_witness :
    (⟨0, 0, 2⟩ : Slice).arr < [[Hash.ofByte 2, Hash.ofByte 1]].length ∧
    3 * (Heap.load [[Hash.ofByte 2, Hash.ofByte 1]] ⟨0, 0, 2⟩).length + 5 ≤ 11 ∧
    ∃ b hp1, UniqueHashesHeap 11 [[Hash.ofByte 2, Hash.ofByte 1]] ⟨0, 0, 2⟩ = .ok (b, hp1) ∧
      hp1.load ⟨0, 0, 2⟩ = Heap.load [[Hash.ofByte 2, Hash.ofByte 1]] ⟨0, 0, 2⟩ ∧
      (∀ s : Slice, s.arr < [[Hash.ofByte 2, Hash.ofByte 1]].length →
        hp1.load s = Heap.load [[Hash.ofByte 2, Hash.ofByte 1]] s) ∧
      UniqueHashes 11 (Heap.load [[Hash.ofByte 2, Hash.ofByte 1]] ⟨0, 0, 2⟩) = .ok b :=
  ⟨by decide, by decide,
    UniqueHashesHeap_leaves_argument [[Hash.ofByte 2, Hash.ofByte 1]] ⟨0, 0, 2⟩ 11
      (by decide) (by decide)⟩

/-- C10 (as stated, refuted): on a list whose two positions hold the same hash,
`UniqueHashes` returns `false`, and on a list without a duplicate it returns `true`. -/
theorem UniqueHashes_true_is_not_duplicate :
    UniqueHashes 11 [Hash.ofByte 1, Hash.ofByte 1] = .ok false ∧
    (∃ (i j : Nat) (hi : i < [Hash.ofByte 1, Hash.ofByte 1].length)
      (hj : j < [Hash.ofByte 1, Hash.ofByte 1].length),
      i ≠ j ∧ [Hash.ofByte 1, Hash.ofByte 1][i] = [Hash.ofByte 1, Hash.ofByte 1][j]) ∧
    UniqueHashes 11 [Hash.ofByte 1, Hash.ofByte 2] = .ok true ∧
    ¬ (∃ (i j : Nat) (hi : i < [Hash.ofByte 1, Hash.ofByte 2].length)
      (hj : j < [Hash.ofByte 1, Hash.ofByte 2].length),
      i ≠ j ∧ [Hash.ofByte 1, Hash.ofByte 2][i] = [Hash.ofByte 1, Hash.ofByte 2][j]) := by
  refine ⟨by decide, ⟨0, 1, by decide, by decide, by decide, by decide⟩, by decide, ?_⟩
  rintro ⟨i, j, hi, hj, hij, he⟩
  have h := (nodup_iff_positions [Hash.ofByte 1, Hash.ofByte 2]).mp (by decide) i j hi hj hij
  exact h he

/-- C10 (amended): for every list of hashes, `UniqueHashes` returns, and its result is
`true` exactly when the list contains no duplicate, that is when there are no two
different positions holding the same hash; on a list with a duplicate it is `false`. -/
theorem UniqueHashes_true_iff_no_duplicate (hashes : List Hash) (fuel : Nat)
    (hf : 3 * hashes.length + 5 ≤ fuel) :
    ∃ b, UniqueHashes fuel hashes = .ok b ∧
      (b = true ↔ ¬ ∃ (i j : Nat) (hi : i < hashes.length) (hj : j < hashes.length),
        i ≠ j ∧ hashes[i] = hashes[j]) := by
  refine ⟨decide hashes.Nodup, UniqueHashes_spec fuel hashes hf, ?_⟩
  rw [decide_eq_true_iff, nodup_iff_positions]
  constructor
  · rintro h ⟨i, j, hi, hj, hij, he⟩
    exact h i j hi hj hij he
  · intro h i j hi hj hij he
    exact h ⟨i, j, hi, hj, hij, he⟩

theorem UniqueHashes_true_iff_no_duplicate_witness :
    3 * [Hash.ofByte 1, Hash.ofByte 1].length + 5 ≤ 11 ∧
    ∃ b, UniqueHashes 11 [Hash.ofByte 1, Hash.ofByte 1] = .ok b ∧
      (b = true ↔ ¬ ∃ (i j : Nat) (hi : i < [Hash.ofByte 1, Hash.ofByte 1].length)
        (hj : j < [Hash.ofByte 1, Hash.ofByte 1].length),
        i ≠ j ∧ [Hash.ofByte 1, Hash.ofByte 1][i] = [Hash.ofByte 1, Hash.ofByte 1][j]) :=
  ⟨by decide, UniqueHashes_true_iff_no_duplicate [Hash.ofByte 1, Hash.ofByte 1] 11 (by decide)⟩

/-! ## Claims about the scheme layer -/

section SchemeFacts

variable {q : Nat} {G1 G2 GT : Type} [AddCommGroup G1] [Module (ZMod q) G1]
  [AddCommGroup G2] [Module (ZMod q) G2] [CommGroup GT]

theorem keyScalar_lt (sys : System q G1 G2 GT) (r : Nat) : 1 + r % (q - 1) < q := by
  have h2 := sys.order_prime.two_le
  have := Nat.mod_lt r (show 0 < q - 1 by omega)
  omega

theorem GenerateKeyPair_ok (sys : System q G1 G2 GT) (r : Nat) :
    GenerateKeyPair sys (some r) =
      .ok (((1 + r % (q - 1) : Nat) : ZMod q) • sys.generator, ⟨1 + r % (q - 1)⟩) :=
  rfl

theorem Sign_ok (sys : System q G1 G2 GT) (h : Hash) (x : Nat) (hx : x < q) :
    Sign sys h ⟨x⟩ = .ok (sys.serialize ((x : ZMod q) • sys.hashToGroup h)) := by
  unfold Sign
  rw [if_pos hx]
  rfl

theorem Verify_serialize [DecidableEq GT] (sys : System q G1 G2 GT) (S : G1) (h : Hash) (pk : G2) :
    Verify sys (sys.serialize S) h pk =
      .ok (decide (sys.pairing S sys.generator = sys.pairing (sys.hashToGroup h) pk)) := by
  unfold Verify
  rw [sys.deserialize_serialize]
  rfl

theorem pairing_zero (sys : System q G1 G2 GT) (z : G2) : sys.pairing 0 z = 1 := by
  have h := sys.pairing_add 0 0 z
  rw [add_zero] at h
  exact (mul_right_eq_self.mp h.symm)

/-- C6: single-signature round trip. For every System, every draw of the secure
generator and every hash `h`: `GenKeys` returns a key pair `(pk, sk)`, `Sign(h, sk)`
returns a signature, and `Verify` of that signature on `h` under `pk` returns `true`
without error. -/
theorem Verify_Sign_GenKeys [DecidableEq GT] (sys : System q G1 G2 GT) (r : Nat) (h : Hash) :
    ∃ pk sk, GenerateKeyPair sys (some r) = .ok (pk, sk) ∧
      ∃ sig, Sign sys h sk = .ok sig ∧ Verify sys sig h pk = .ok true := by
  refine ⟨_, _, GenerateKeyPair_ok sys r, _, Sign_ok sys h _ (keyScalar_lt sys r), ?_⟩
  rw [Verify_serialize, sys.pairing_smul]
  simp

theorem aggregate_chain (sys : System q G1 G2 GT) :
    ∀ (rs : List Nat) (hashes : List Hash), rs.length = hashes.length →
      ∃ keys sigs pts, genKeysAll sys (rs.map some) = .ok keys ∧
        signAll sys hashes (keys.map Prod.snd) = .ok sigs ∧
        deserializeAll sys sigs = .ok pts ∧ keys.length = rs.length ∧
        sys.pairing pts.sum sys.generator =
          (List.zipWith (fun h pk => sys.pairing (sys.hashToGroup h) pk) hashes
            (keys.map Prod.fst)).prod := by
  intro rs
  induction rs with
  | nil =>
    intro hashes hlen
    refine ⟨[], [], [], rfl, ?_, rfl, rfl, ?_⟩
    · cases hashes <;> rfl
    · simpa using pairing_zero sys sys.generator
  | cons r rs ih =>
    intro hashes hlen
    cases hashes with
    | nil => simp at hlen
    | cons h hs =>
      obtain ⟨keys, sigs, pts, e1, e2, e3, e4, e5⟩ := ih hs (by simpa using hlen)
      refine ⟨(((1 + r % (q - 1) : Nat) : ZMod q) • sys.generator, ⟨1 + r % (q - 1)⟩) :: keys,
        sys.serialize (((1 + r % (q - 1) : Nat) : ZMod q) • sys.hashToGroup h) :: sigs,
        (((1 + r % (q - 1) : Nat) : ZMod q) • sys.hashToGroup h) :: pts, ?_, ?_, ?_, ?_, ?_⟩
      · simp only [List.map_cons, genKeysAll]
        rw [GenerateKeyPair_ok, ok_bind, e1, ok_bind]
        rfl
      · simp only [List.map_cons, signAll]
        rw [Sign_ok sys h _ (keyScalar_lt sys r), ok_bind, e2, ok_bind]
        rfl
      · simp only [deserializeAll]
        rw [sys.deserialize_serialize]
        simp only []
        rw [e3, ok_bind]
        rfl
      · simp [e4]
      · simp only [List.sum_cons, List.map_cons, List.zipWith_cons_cons, List.prod_cons]
        rw [sys.pairing_add, sys.pairing_smul, e5]

/-- C8: aggregation correctness. For every System, every list of draws of the secure
generator (one key pair each) and every list of pairwise distinct hashes of the same
length: key generation and all signings return, `Aggregate` of the signatures returns,
and `AggregateVerify` of the aggregate against the hashes and the public keys returns
`true` without error. -/
theorem AggregateVerify_Aggregate [DecidableEq GT] (sys : System q G1 G2 GT) (rs : List Nat)
    (hashes : List Hash) (hlen : rs.length = hashes.length) (hd : hashes.Nodup) :
    ∃ keys sigs agg, genKeysAll sys (rs.map some) = .ok keys ∧
      signAll sys hashes (keys.map Prod.snd) = .ok sigs ∧
      Aggregate sys sigs = .ok agg ∧
      AggregateVerify sys agg hashes (keys.map Prod.fst) = .ok true := by
  obtain ⟨keys, sigs, pts, e1, e2, e3, e4, e5⟩ := aggregate_chain sys rs hashes hlen
  refine ⟨keys, sigs, sys.serialize pts.sum, e1, e2, ?_, ?_⟩
  · unfold Aggregate
    rw [e3, ok_bind]
    rfl
  · unfold AggregateVerify
    rw [if_neg (by simp [e4, hlen]), UniqueHashes_spec _ hashes (le_refl _)]
    simp only [hd, decide_True]
    rw [sys.deserialize_serialize]
    simp only [e5, decide_True]
    rfl

/-- C9: duplicate-message rejection. For every System, every aggregate signature and
all lists of hashes and public keys of equal length in which two different positions
hold the same hash, `AggregateVerify` fails with `DuplicateMessageError`. -/
theorem AggregateVerify_duplicate [DecidableEq GT] (sys : System q G1 G2 GT) (aggregate : List Byte)
    (hashes : List Hash) (publicKeys : List G2) (hlen : hashes.length = publicKeys.length)
    (hdup : ∃ (i j : Nat) (hi : i < hashes.length) (hj : j < hashes.length),
      i ≠ j ∧ hashes[i] = hashes[j]) :
    AggregateVerify sys aggregate hashes publicKeys =
      .error SchemeError.DuplicateMessageError := by
  have hnd : ¬ hashes.Nodup := by
    intro h
    obtain ⟨i, j, hi, hj, hij, he⟩ := hdup
    exact (nodup_iff_positions hashes).mp h i j hi hj hij he
  unfold AggregateVerify
  rw [if_neg (by simp [hlen]), UniqueHashes_spec _ hashes (le_refl _)]
  simp only [hnd, decide_False]
  rfl

/-! ### Threshold recovery -/

theorem allSome_map_of_forall {α β : Type} (l : List α) (F : α → Option β) (G : α → β)
    (h : ∀ x ∈ l, F x = some (G x)) : allSome (l.map F) = some (l.map G) := by
  induction l with
  | nil => rfl
  | cons x xs ih =>
    rw [List.map_cons, h x (List.mem_cons_self _ _)]
    simp only [allSome]
    rw [ih (fun y hy => h y (List.mem_cons_of_mem _ hy))]
    rfl

theorem evalPoly_zero (cs : List (ZMod q)) : evalPoly cs 0 = cs.headD 0 := by
  cases cs <;> simp [evalPoly]

theorem exists_polynomial (cs : List (ZMod q)) :
    ∃ P : Polynomial (ZMod q), (∀ m, cs.length ≤ m → P.coeff m = 0) ∧
      ∀ x, P.eval x = evalPoly cs x := by
  induction cs with
  | nil => exact ⟨0, by simp, by simp [evalPoly]⟩
  | cons a as ih =>
    obtain ⟨P, hc, he⟩ := ih
    refine ⟨Polynomial.C a + Polynomial.X * P, ?_, ?_⟩
    · intro m hm
      obtain ⟨k, rfl⟩ : ∃ k, m = k + 1 := ⟨m - 1, by simp at hm; omega⟩
      rw [Polynomial.coeff_add, Polynomial.coeff_C_succ, Polynomial.coeff_X_mul, zero_add]
      exact hc k (by simpa using hm)
    · intro x
      simp [evalPoly, he]

theorem natCast_injOn (n : Nat) (hnq : n < q) (i j : Nat) (hi : i ≤ n) (hj : j ≤ n)
    (h : (i : ZMod q) = (j : ZMod q)) : i = j := by
  rw [ZMod.natCast_eq_natCast_iff', Nat.mod_eq_of_lt (by omega), Nat.mod_eq_of_lt (by omega)] at h
  exact h

theorem lagrange_sum (hq : Nat.Prime q) (ids : List Nat) (hnd : ids.Nodup)
    (hinj : ∀ i ∈ ids, ∀ j ∈ ids, (i : ZMod q) = (j : ZMod q) → i = j)
    (P : Polynomial (ZMod q)) (hdeg : ∀ m, ids.length ≤ m → P.coeff m = 0) :
    (ids.map (fun i => ((ids.erase i).map (fun (j : Nat) =>
      (0 - (j : ZMod q)) * ((i : ZMod q) - (j : ZMod q))⁻¹)).prod * P.eval (i : ZMod q))).sum =
      P.eval 0 := by
  haveI : Fact q.Prime := ⟨hq⟩
  have hvs : Set.InjOn (fun i : Nat => (i : ZMod q)) (ids.toFinset : Set Nat) := by
    intro i hi j hj h
    exact hinj i (by simpa using hi) j (by simpa using hj) h
  have hlt : P.degree < (ids.toFinset.card : WithBot Nat) := by
    rw [List.toFinset_card_of_nodup hnd, Polynomial.degree_lt_iff_coeff_zero]
    exact hdeg
  have hP := Lagrange.eq_interpolate (s := ids.toFinset) (v := fun i : Nat => (i : ZMod q)) hvs hlt
  have h0 := congrArg (Polynomial.eval 0) hP
  rw [Lagrange.interpolate_apply, Polynomial.eval_finset_sum, List.sum_toFinset _ hnd] at h0
  rw [h0]
  refine congrArg List.sum (List.map_congr_left ?_)
  intro i hi
  have he : ids.toFinset.erase i = (ids.erase i).toFinset := by
    ext j
    simp [hnd.mem_erase_iff]
  rw [Polynomial.eval_mul, Polynomial.eval_C, mul_comm, Lagrange.basis, Polynomial.eval_prod, he,
    List.prod_toFinset _ (hnd.erase i)]
  congr 2
  refine List.map_congr_left ?_
  intro j _
  simp only [Lagrange.basisDivisor, Polynomial.eval_mul, Polynomial.eval_C, Polynomial.eval_sub,
    Polynomial.eval_X]
  rw [mul_comm]

theorem zipWith_smul_sum (l : List Nat) (lam f : Nat → ZMod q) (H : G1) :
    (List.zipWith (fun (a : ZMod q) (S : G1) => a • S) (l.map lam)
      (l.map (fun i => f i • H))).sum = ((l.map (fun i => lam i * f i)).sum) • H := by
  induction l with
  | nil => simp
  | cons x xs ih =>
    simp only [List.map_cons, List.zipWith_cons_cons, List.sum_cons]
    rw [ih, add_smul, mul_smul]

theorem signAll_members (sys : System q G1 G2 GT) (h : Hash) (f : Nat → ZMod q) :
    ∀ ids : List Nat,
      signAll sys (List.replicate ids.length h) (ids.map (fun i => (⟨(f i).val⟩ : PrivateKey))) =
        .ok (ids.map (fun i => sys.serialize (f i • sys.hashToGroup h))) := by
  haveI : NeZero q := ⟨sys.order_prime.ne_zero⟩
  intro ids
  induction ids with
  | nil => rfl
  | cons i is ih =>
    simp only [List.length_cons, List.replicate_succ, List.map_cons, signAll]
    rw [Sign_ok sys h _ (ZMod.val_lt (f i)), ok_bind, ih, ok_bind, ZMod.natCast_zmod_val]
    rfl

theorem deserializeAll_serialize (sys : System q G1 G2 GT) (pts : List G1) :
    deserializeAll sys (pts.map sys.serialize) = .ok pts := by
  induction pts with
  | nil => rfl
  | cons p ps ih =>
    simp only [List.map_cons, deserializeAll]
    rw [sys.deserialize_serialize]
    simp only []
    rw [ih, ok_bind]
    rfl

theorem lagrangeCoeff_ok (ids : List Nat) (hnd : ids.Nodup)
    (hinj : ∀ i ∈ ids, ∀ j ∈ ids, (i : ZMod q) = (j : ZMod q) → i = j) (i : Nat) (hi : i ∈ ids) :
    lagrangeCoeff q ids i = some (((ids.erase i).map (fun (j : Nat) =>
      (0 - (j : ZMod q)) * ((i : ZMod q) - (j : ZMod q))⁻¹)).prod) := by
  unfold lagrangeCoeff
  simp only []
  rw [if_neg]
  simp only [List.any_eq_true, decide_eq_true_eq, not_exists, not_and]
  intro j hj he
  have hji := (hnd.mem_erase_iff).mp hj
  exact hji.1 (hinj i hi j hji.2 (sub_eq_zero.mp he)).symm

theorem GenerateKeyShares_ok (sys : System q G1 G2 GT) (t n : Nat) (r : Nat → Nat)
    (ht : 1 ≤ t) (htn : t ≤ n) :
    GenerateKeyShares sys t n (fun k => some (r k)) =
      .ok ((((List.range t).map r).map (fun (x : Nat) => (x : ZMod q))).headD 0 • sys.generator,
        (List.range n).map (fun k =>
          evalPoly (((List.range t).map r).map (fun (x : Nat) => (x : ZMod q))) ((k + 1 : Nat) : ZMod q) •
            sys.generator),
        ⟨((((List.range t).map r).map (fun (x : Nat) => (x : ZMod q))).headD 0).val⟩,
        (List.range n).map (fun k =>
          ⟨(evalPoly (((List.range t).map r).map (fun (x : Nat) => (x : ZMod q)))
            ((k + 1 : Nat) : ZMod q)).val⟩)) := by
  unfold GenerateKeyShares
  rw [if_neg (by omega), allSome_map_of_forall (List.range t) _ r (fun _ _ => rfl)]
  rfl

theorem shares_getElem? {α : Type} (n : Nat) (F : Nat → α) (id : Nat) (h : id < n) :
    ((List.range n).map F)[id]? = some (F id) := by
  rw [List.getElem?_map, List.getElem?_range h]
  rfl

/-- C7: threshold recovery. For every System whose group order exceeds the number `n` of
members, every `1 ≤ t ≤ n`, every outcome of the coefficient draws, every hash `h` and
every list `ids` of `t` (or more) distinct members, given as in the tests by their
positions `0..n-1` in `memberSecrets` and in any order: `GenKeyShares` returns, the
signings of `h` with `memberSecrets[id]` return, `Recover` of these signatures with the
same `ids` returns, and the recovered signature verifies against the group public key. -/
theorem Verify_Recover_threshold [DecidableEq GT] (sys : System q G1 G2 GT) (t n : Nat)
    (r : Nat → Nat) (ids : List Nat) (h : Hash) (ht : 1 ≤ t) (htn : t ≤ n) (hnq : n < q)
    (hnd : ids.Nodup) (hmem : ∀ id ∈ ids, id < n) (hlen : t ≤ ids.length) :
    ∃ groupKey memberKeys groupSecret memberSecrets chosen sigs sig,
      GenerateKeyShares sys t n (fun k => some (r k)) =
        .ok (groupKey, memberKeys, groupSecret, memberSecrets) ∧
      allSome (ids.map (fun (id : Nat) => memberSecrets[id]?)) = some chosen ∧
      signAll sys (List.replicate ids.length h) chosen = .ok sigs ∧
      Recover sys sigs ids = .ok sig ∧
      Verify sys sig h groupKey = .ok true := by
  have hnd1 : (ids.map (fun (id : Nat) => id + 1)).Nodup :=
    hnd.map (fun x y hxy => Nat.succ_injective hxy)
  have hmem1 : ∀ i ∈ ids.map (fun (id : Nat) => id + 1), i ≤ n := by
    intro i hi
    obtain ⟨id, hid, rfl⟩ := List.mem_map.mp hi
    exact hmem id hid
  have hinj : ∀ i ∈ ids.map (fun (id : Nat) => id + 1),
      ∀ j ∈ ids.map (fun (id : Nat) => id + 1), (i : ZMod q) = (j : ZMod q) → i = j :=
    fun i hi j hj e => natCast_injOn n hnq i j (hmem1 i hi) (hmem1 j hj) e
  obtain ⟨P, hc, he⟩ :=
    exists_polynomial (((List.range t).map r).map (fun (x : Nat) => (x : ZMod q)))
  have hsum := lagrange_sum sys.order_prime (ids.map (fun (id : Nat) => id + 1)) hnd1 hinj P
    (fun m hm => hc m (by
      simp only [List.length_map, List.length_range] at hm ⊢
      omega))
  simp only [he, evalPoly_zero] at hsum
  refine ⟨_, _, _, _, _, _,
    sys.serialize ((((List.range t).map r).map (fun (x : Nat) => (x : ZMod q))).headD 0 •
      sys.hashToGroup h),
    GenerateKeyShares_ok sys t n r ht htn,
    allSome_map_of_forall ids _ _ (fun id hid =>
      shares_getElem? n (fun k => (⟨(evalPoly (((List.range t).map r).map
        (fun (x : Nat) => (x : ZMod q))) ((k + 1 : Nat) : ZMod q)).val⟩ : PrivateKey)) id
        (hmem id hid)),
    signAll_members sys h
      (fun id => evalPoly (((List.range t).map r).map (fun (x : Nat) => (x : ZMod q)))
        ((id + 1 : Nat) : ZMod q)) ids,
    ?_, ?_⟩
  · unfold Recover
    rw [if_neg (by simp)]
    simp only []
    rw [allSome_map_of_forall (ids.map (fun (id : Nat) => id + 1)) _ _
      (lagrangeCoeff_ok (ids.map (fun (id : Nat) => id + 1)) hnd1 hinj)]
    simp only []
    have hpts := deserializeAll_serialize sys (ids.map (fun (id : Nat) =>
      evalPoly (((List.range t).map r).map (fun (x : Nat) => (x : ZMod q)))
        ((id + 1 : Nat) : ZMod q) • sys.hashToGroup h))
    rw [List.map_map] at hpts
    simp only [Function.comp_def] at hpts
    rw [hpts, ok_bind]
    have hl : ids.map (fun (id : Nat) =>
        evalPoly (((List.range t).map r).map (fun (x : Nat) => (x : ZMod q)))
          ((id + 1 : Nat) : ZMod q) • sys.hashToGroup h) =
        (ids.map (fun (id : Nat) => id + 1)).map (fun (i : Nat) =>
          evalPoly (((List.range t).map r).map (fun (x : Nat) => (x : ZMod q))) (i : ZMod q) •
            sys.hashToGroup h) :=
      (List.map_map (fun (i : Nat) =>
        evalPoly (((List.range t).map r).map (fun (x : Nat) => (x : ZMod q))) (i : ZMod q) •
          sys.hashToGroup h) (fun (id : Nat) => id + 1) ids).symm
    rw [hl, zipWith_smul_sum, hsum]
    rfl
  · rw [Verify_serialize, sys.pairing_smul]
    simp

end SchemeFacts

theorem Verify_Recover_threshold_witness :
    1 ≤ 2 ∧ 2 ≤ 3 ∧ 3 < 23 ∧ [2, 0].Nodup ∧ (∀ id ∈ [2, 0], id < 3) ∧ 2 ≤ [2, 0].length ∧
    ∃ groupKey memberKeys groupSecret memberSecrets chosen sigs sig,
      GenerateKeyShares toySystem 2 3 (fun k => some (k + 4)) =
        .ok (groupKey, memberKeys, groupSecret, memberSecrets) ∧
      allSome ([2, 0].map (fun (id : Nat) => memberSecrets[id]?)) = some chosen ∧
      signAll toySystem (List.replicate [2, 0].length (Hash.ofByte 9)) chosen = .ok sigs ∧
      Recover toySystem sigs [2, 0] = .ok sig ∧
      Verify toySystem sig (Hash.ofByte 9) groupKey = .ok true :=
  ⟨by decide, by decide, by decide, by decide, by decide, by decide,
    Verify_Recover_threshold toySystem 2 3 (fun k => k + 4) [2, 0] (Hash.ofByte 9)
      (by decide) (by decide) (by decide) (by decide) (by decide) (by decide)⟩

theorem AggregateVerify_Aggregate_witness :
    [3, 4].length = [Hash.ofByte 1, Hash.ofByte 2].length ∧
    [Hash.ofByte 1, Hash.ofByte 2].Nodup ∧
    ∃ keys sigs agg, genKeysAll toySystem ([3, 4].map some) = .ok keys ∧
      signAll toySystem [Hash.ofByte 1, Hash.ofByte 2] (keys.map Prod.snd) = .ok sigs ∧
      Aggregate toySystem sigs = .ok agg ∧
      AggregateVerify toySystem agg [Hash.ofByte 1, Hash.ofByte 2] (keys.map Prod.fst) =
        .ok true :=
  ⟨by decide, by decide,
    AggregateVerify_Aggregate toySystem [3, 4] [Hash.ofByte 1, Hash.ofByte 2] (by decide)
      (by decide)⟩

theorem AggregateVerify_duplicate_witness :
    [Hash.ofByte 1, Hash.ofByte 1].length = ([2, 3] : List (ZMod 23)).length ∧
    (∃ (i j : Nat) (hi : i < [Hash.ofByte 1, Hash.ofByte 1].length)
      (hj : j < [Hash.ofByte 1, Hash.ofByte 1].length),
      i ≠ j ∧ [Hash.ofByte 1, Hash.ofByte 1][i] = [Hash.ofByte 1, Hash.ofByte 1][j]) ∧
    AggregateVerify toySystem [] [Hash.ofByte 1, Hash.ofByte 1] [2, 3] =
      .error SchemeError.DuplicateMessageError :=
  ⟨by decide, ⟨0, 1, by decide, by decide, by decide, by decide⟩,
    AggregateVerify_duplicate toySystem [] [Hash.ofByte 1, Hash.ofByte 1] [2, 3] (by decide)
      ⟨0, 1, by decide, by decide, by decide, by decide⟩⟩

/-! ## The comparison of hashes -/

theorem foldl_bytes_acc : ∀ (xs : List Byte) (a : Nat),
    xs.foldl (fun acc x => acc * 256 + x.val) a =
      a * 256 ^ xs.length + xs.foldl (fun acc x => acc * 256 + x.val) 0 := by
  intro xs
  induction xs with
  | nil => intro a; simp
  | cons x xs ih =>
    intro a
    simp only [List.foldl_cons, List.length_cons]
    rw [ih (a * 256 + x.val), ih (0 * 256 + x.val), pow_succ]
    ring

theorem foldl_bytes_lt : ∀ xs : List Byte,
    xs.foldl (fun acc x => acc * 256 + x.val) 0 < 256 ^ xs.length := by
  intro xs
  induction xs with
  | nil => simp
  | cons x xs ih =>
    simp only [List.foldl_cons, List.length_cons]
    rw [foldl_bytes_acc xs (0 * 256 + x.val), pow_succ]
    have hx := x.isLt
    have : (0 * 256 + x.val) * 256 ^ xs.length ≤ 255 * 256 ^ xs.length :=
      Nat.mul_le_mul_right _ (by omega)
    omega

theorem lex_cons_iff (x y : Byte) (xs ys : List Byte) :
    List.Lex (fun a b : Byte => a < b) (x :: xs) (y :: ys) ↔
      x < y ∨ (x = y ∧ List.Lex (fun a b : Byte => a < b) xs ys) := by
  constructor
  · intro h
    cases h with
    | cons h => exact Or.inr ⟨rfl, h⟩
    | rel h => exact Or.inl h
  · rintro (h | ⟨rfl, h⟩)
    · exact List.Lex.rel h
    · exact List.Lex.cons h

theorem foldl_bytes_lt_iff_lex : ∀ (xs ys : List Byte), xs.length = ys.length →
    (xs.foldl (fun acc x => acc * 256 + x.val) 0 < ys.foldl (fun acc x => acc * 256 + x.val) 0 ↔
      List.Lex (fun a b : Byte => a < b) xs ys) := by
  intro xs
  induction xs with
  | nil =>
    intro ys hlen
    cases ys with
    | nil => simp [List.Lex.not_nil_right]
    | cons y ys => simp at hlen
  | cons x xs ih =>
    intro ys hlen
    cases ys with
    | nil => simp at hlen
    | cons y ys =>
      have hl : xs.length = ys.length := by simpa using hlen
      rw [lex_cons_iff, ← ih ys hl]
      simp only [List.foldl_cons]
      rw [foldl_bytes_acc xs (0 * 256 + x.val), foldl_bytes_acc ys (0 * 256 + y.val), ← hl]
      have hu := foldl_bytes_lt xs
      have hv := foldl_bytes_lt ys
      rw [← hl] at hv
      simp only [Nat.zero_mul, Nat.zero_add]
      generalize xs.foldl (fun acc x => acc * 256 + x.val) 0 = u at hu ⊢
      generalize ys.foldl (fun acc x => acc * 256 + x.val) 0 = v at hv ⊢
      generalize 256 ^ xs.length = P at hu hv ⊢
      rcases lt_trichotomy x.val y.val with h | h | h
      · have h1 : (x.val + 1) * P ≤ y.val * P := Nat.mul_le_mul_right _ h
        have h2 : (x.val + 1) * P = x.val * P + P := by ring
        have hxy : x < y := h
        simp only [hxy, true_or, iff_true]
        omega
      · have hxy : x = y := Fin.ext h
        subst hxy
        simp only [lt_self_iff_false, false_or, true_and]
        omega
      · have h1 : (y.val + 1) * P ≤ x.val * P := Nat.mul_le_mul_right _ h
        have h2 : (y.val + 1) * P = y.val * P + P := by ring
        have hxy : ¬ x < y := by
          intro h3
          have : x.val < y.val := h3
          omega
        have hne : ¬ x = y := by
          rintro rfl
          omega
        simp only [hxy, hne, false_and, or_self, iff_false]
        omega

/-- C15: the comparison of the big-endian values is faithful on 32-byte hashes. For all
hashes `x` and `y`: `Cmp` is `0` exactly when all bytes are equal, `-1` exactly when the
bytes of `x` precede those of `y` in lexicographic order, and `+1` exactly when the
bytes of `y` precede those of `x`; so two different hashes never compare equal. -/
theorem Cmp_Big_faithful (x y : Hash) :
    (Cmp x.Big y.Big = 0 ↔ x.bytes = y.bytes) ∧
    (Cmp x.Big y.Big = -1 ↔ List.Lex (fun a b : Byte => a < b) x.bytes y.bytes) ∧
    (Cmp x.Big y.Big = 1 ↔ List.Lex (fun a b : Byte => a < b) y.bytes x.bytes) ∧
    (x ≠ y → Cmp x.Big y.Big ≠ 0) := by
  have hxy : x.bytes.length = y.bytes.length := x.size_eq.trans y.size_eq.symm
  refine ⟨?_, ?_, ?_, ?_⟩
  · rw [Cmp_eq_zero]
    constructor
    · intro h
      rw [Big_injective x y h]
    · intro h
      unfold Hash.Big
      rw [h]
  · rw [Cmp_eq_neg_one]
    exact foldl_bytes_lt_iff_lex x.bytes y.bytes hxy
  · rw [Cmp_eq_one]
    exact foldl_bytes_lt_iff_lex y.bytes x.bytes hxy.symm
  · intro hne h
    exact hne (Big_injective x y ((Cmp_eq_zero _ _).mp h))

/-! ## `SortHashes` as a canonical form -/

theorem sorted_of_sortedOn (c : List Hash) (hs : SortedOn c 0 ((c.length : Int) - 1)) :
    List.Sorted (fun x y : Hash => x.Big ≤ y.Big) c := by
  unfold List.Sorted
  rw [List.pairwise_iff_getElem]
  intro i j hi hj hij
  have := hs (i : Int) (j : Int) (by omega) (by omega) (by omega)
  unfold keyAt at this
  rwa [elemAt_natCast c i hi, elemAt_natCast c j hj] at this

theorem SortHashes_eq_of_sorted_perm (a s : List Hash) (fuel : Nat)
    (hf : 3 * a.length + 5 ≤ fuel) (hp : s.Perm a)
    (hs : List.Sorted (fun x y : Hash => x.Big ≤ y.Big) s) : SortHashes fuel a = .ok s := by
  haveI : IsAntisymm Hash (fun x y : Hash => x.Big ≤ y.Big) :=
    ⟨fun x y h1 h2 => Big_injective x y (le_antisymm h1 h2)⟩
  obtain ⟨out, e, F, S⟩ := SortHashes_spec fuel a hf
  rw [← F.len] at S
  rw [e, List.eq_of_perm_of_sorted (F.perm.trans hp.symm) (sorted_of_sortedOn out S) hs]

/-- C14: `SortHashes` yields a canonical form. For any two lists of hashes that are
permutations of each other, `SortHashes` returns the identical list on both; sorting
that list again returns it unchanged, and a list that is already in non-decreasing order
of the big-endian values is returned unchanged. -/
theorem SortHashes_canonical (a b : List Hash) (fuel : Nat) (hp : a.Perm b)
    (hf : 3 * a.length + 5 ≤ fuel) :
    ∃ out, SortHashes fuel a = .ok out ∧ SortHashes fuel b = .ok out ∧
      SortHashes fuel out = .ok out ∧
      ((∀ (i j : Nat) (hj : j < a.length) (hij : i < j), (a[i]).Big ≤ (a[j]).Big) → out = a) := by
  haveI : IsAntisymm Hash (fun x y : Hash => x.Big ≤ y.Big) :=
    ⟨fun x y h1 h2 => Big_injective x y (le_antisymm h1 h2)⟩
  obtain ⟨out, e, F, S⟩ := SortHashes_spec fuel a hf
  rw [← F.len] at S
  have hs := sorted_of_sortedOn out S
  refine ⟨out, e, ?_, ?_, ?_⟩
  · exact SortHashes_eq_of_sorted_perm b out fuel (by rw [← hp.length_eq]; exact hf)
      (F.perm.trans hp) hs
  · exact SortHashes_eq_of_sorted_perm out out fuel (by rw [F.len]; exact hf)
      (List.Perm.refl out) hs
  · intro ha
    refine List.eq_of_perm_of_sorted F.perm hs ?_
    unfold List.Sorted
    rw [List.pairwise_iff_getElem]
    intro i j _ hj hij
    exact ha i j hj hij

theorem SortHashes_canonical_witness :
    [Hash.ofByte 3, Hash.ofByte 1, Hash.ofByte 2].Perm
      [Hash.ofByte 2, Hash.ofByte 3, Hash.ofByte 1] ∧
    3 * [Hash.ofByte 3, Hash.ofByte 1, Hash.ofByte 2].length + 5 ≤ 14 ∧
    ∃ out, SortHashes 14 [Hash.ofByte 3, Hash.ofByte 1, Hash.ofByte 2] = .ok out ∧
      SortHashes 14 [Hash.ofByte 2, Hash.ofByte 3, Hash.ofByte 1] = .ok out ∧
      SortHashes 14 out = .ok out ∧
      ((∀ (i j : Nat) (hj : j < [Hash.ofByte 3, Hash.ofByte 1, Hash.ofByte 2].length)
        (hij : i < j), ([Hash.ofByte 3, Hash.ofByte 1, Hash.ofByte 2][i]).Big ≤
          ([Hash.ofByte 3, Hash.ofByte 1, Hash.ofByte 2][j]).Big) →
        out = [Hash.ofByte 3, Hash.ofByte 1, Hash.ofByte 2]) :=
  ⟨by decide, by decide,
    SortHashes_canonical [Hash.ofByte 3, Hash.ofByte 1, Hash.ofByte 2]
      [Hash.ofByte 2, Hash.ofByte 3, Hash.ofByte 1] 14 (by decide) (by decide)⟩

/-! ## `RandomHash` and `RandomHashes` when the draws succeed -/

theorem BytesToHash_bytes (bs : List Byte) (h : bs.length = HashLength) :
    (BytesToHash bs).bytes = bs := by
  simp [BytesToHash, h]

theorem RandomHash_ok (src : RandSource) (k : Nat)
    (bs : { bs : List Byte // bs.length = HashLength }) (h : src k = .ok bs) :
    RandomHash src k = ((some (BytesToHash bs.val), none), k + 1) := by
  unfold RandomHash
  rw [h]

theorem RandomHash_error (src : RandSource) (k : Nat) (e : RandError) (h : src k = .error e) :
    RandomHash src k = ((none, some e), k + 1) := by
  unfold RandomHash
  rw [h]

theorem randomHashesLoop_ok (src : RandSource) :
    ∀ (todo : Nat) (i : Int) (hashes : List Hash) (k : Nat), 0 ≤ i →
      i + todo = hashes.length → (∀ m, m < todo → ∃ bs, src (k + m) = .ok bs) →
      ∃ out, randomHashesLoop src todo i hashes k = .ok ((some out, none), k + todo) ∧
        out.length = hashes.length ∧
        (∀ j : Int, 0 ≤ j → j < i → elemAt out j = elemAt hashes j) ∧
        (∀ m : Nat, m < todo → ∃ bs, src (k + m) = .ok bs ∧
          (elemAt out (i + m)).bytes = bs.val) := by
  intro todo
  induction todo with
  | zero =>
    intro i hashes k _ _ _
    exact ⟨hashes, rfl, rfl, fun _ _ _ => rfl, fun m hm => absurd hm (Nat.not_lt_zero m)⟩
  | succ t ih =>
    intro i hashes k hi hlen hok
    obtain ⟨bs, hbs⟩ := hok 0 (Nat.succ_pos t)
    rw [Nat.add_zero] at hbs
    have hil : i < hashes.length := by push_cast at hlen; omega
    obtain ⟨out, e, hl, hpre, hnew⟩ := ih (i + 1) (hashes.set i.toNat (BytesToHash bs.val))
      (k + 1) (by omega) (by simp only [List.length_set]; push_cast at hlen ⊢; omega)
      (fun m hm => by
        have := hok (m + 1) (by omega)
        rwa [show k + (m + 1) = k + 1 + m by omega] at this)
    refine ⟨out, ?_, ?_, ?_, ?_⟩
    · simp only [randomHashesLoop, RandomHash_ok src k bs hbs]
      rw [writeAt_ok hashes i _ hi hil, ok_bind]
      simp only [Option.isSome_none, Bool.false_eq_true, if_false]
      rw [e, show k + 1 + t = k + (t + 1) by omega]
    · rw [hl, List.length_set]
    · intro j hj0 hji
      rw [hpre j hj0 (by omega), elemAt_set hashes i j _ hi hj0 hil, if_neg (by omega)]
    · intro m hm
      cases m with
      | zero =>
        refine ⟨bs, by rw [Nat.add_zero]; exact hbs, ?_⟩
        rw [show i + ((0 : Nat) : Int) = i by simp, hpre i hi (by omega),
          elemAt_set hashes i i _ hi hi hil, if_pos rfl]
        exact BytesToHash_bytes bs.val bs.property
      | succ m1 =>
        obtain ⟨bs1, h1, h2⟩ := hnew m1 (by omega)
        refine ⟨bs1, by rw [show k + (m1 + 1) = k + 1 + m1 by omega]; exact h1, ?_⟩
        rw [show i + ((m1 + 1 : Nat) : Int) = i + 1 + (m1 : Int) by push_cast; ring]
        exact h2

/-- C11 (as stated, refuted): with every draw succeeding, `RandomHashes(2^62)` on a
64-bit runtime returns no list: `make` panics with `makeslice: len out of range`,
the `2^62 * 32` bytes being above the allocation limit. -/
theorem RandomHashes_panics_on_large_n :
    (0 : Int) ≤ 2 ^ 62 ∧ (∀ m : Nat, ∃ bs, steadySource (0 + m) = .ok bs) ∧
    RandomHashes maxAlloc64 steadySource (2 ^ 62) 0 =
      .error Fault.makeSliceLenOutOfRange := by
  refine ⟨by norm_num, fun _ => ⟨_, rfl⟩, ?_⟩
  unfold RandomHashes makeHashes
  rw [if_pos (Or.inr (by norm_num [maxAlloc64, HashLength]))]
  rfl

/-- C11 (amended): for every `n ≥ 0` that `make` accepts (`n * 32` bytes within the
allocation limit of the runtime), when every draw succeeds, `RandomHashes(n)` returns no
error and a list of exactly `n` hashes whose `m`-th element consists of exactly the
bytes delivered by the `m`-th draw, in draw order; `RandomHash` returns the hash made of
the bytes read when the read succeeds, and `nil` with the error when the read fails. -/
theorem RandomHashes_all_draws_succeed (maxAlloc : Nat) (src : RandSource) (n : Int) (k : Nat)
    (hn : 0 ≤ n) (hcap : n * HashLength ≤ maxAlloc)
    (hok : ∀ m : Nat, (m : Int) < n → ∃ bs, src (k + m) = .ok bs) :
    (∃ hashes, RandomHashes maxAlloc src n k = .ok ((some hashes, none), k + n.toNat) ∧
      (hashes.length : Int) = n ∧
      ∀ (m : Nat) (hm : m < hashes.length),
        ∃ bs, src (k + m) = .ok bs ∧ (hashes[m]).bytes = bs.val) ∧
    (∀ j bs, src j = .ok bs →
      ∃ h, RandomHash src j = ((some h, none), j + 1) ∧ h.bytes = bs.val) ∧
    (∀ j e, src j = .error e → RandomHash src j = ((none, some e), j + 1)) := by
  refine ⟨?_, ?_, ?_⟩
  · obtain ⟨out, e, hl, _, hnew⟩ := randomHashesLoop_ok src n.toNat 0
      (List.replicate n.toNat Hash.zero) k (le_refl _)
      (by simp only [List.length_replicate]; omega) (fun m hm => hok m (by omega))
    rw [List.length_replicate] at hl
    refine ⟨out, ?_, by omega, ?_⟩
    · unfold RandomHashes
      rw [makeHashes_ok maxAlloc n hn hcap, ok_bind, List.length_replicate]
      exact e
    · intro m hm
      obtain ⟨bs, h1, h2⟩ := hnew m (by omega)
      rw [zero_add, elemAt_natCast out m hm] at h2
      exact ⟨bs, h1, h2⟩
  · intro j bs h
    exact ⟨BytesToHash bs.val, RandomHash_ok src j bs h, BytesToHash_bytes bs.val bs.property⟩
  · intro j e h
    exact RandomHash_error src j e h

theorem RandomHashes_all_draws_succeed_witness :
    (0 : Int) ≤ 2 ∧ (2 : Int) * HashLength ≤ maxAlloc64 ∧
    (∀ m : Nat, (m : Int) < 2 → ∃ bs, steadySource (0 + m) = .ok bs) ∧
    (∃ hashes,
      RandomHashes maxAlloc64 steadySource 2 0 = .ok ((some hashes, none), 0 + (2 : Int).toNat) ∧
      (hashes.length : Int) = 2 ∧
      ∀ (m : Nat) (hm : m < hashes.length),
        ∃ bs, steadySource (0 + m) = .ok bs ∧ (hashes[m]).bytes = bs.val) ∧
    (∀ j bs, steadySource j = .ok bs →
      ∃ h, RandomHash steadySource j = ((some h, none), j + 1) ∧ h.bytes = bs.val) ∧
    (∀ j e, steadySource j = .error e → RandomHash steadySource j = ((none, some e), j + 1)) :=
  ⟨by decide, by decide, fun _ _ => ⟨_, rfl⟩,
    RandomHashes_all_draws_succeed maxAlloc64 steadySource 2 0 (by decide) (by decide)
      (fun _ _ => ⟨_, rfl⟩)⟩

/-! ## Termination -/

theorem error_bind {ε α β : Type} (e : ε) (f : α → Except ε β) :
    (Except.error e >>= f) = Except.error e :=
  rfl

theorem readAt_error (a : List Hash) (k : Int) (h : k < 0 ∨ (a.length : Int) ≤ k) :
    readAt a k = .error Fault.indexOutOfRange := by
  unfold readAt
  by_cases h0 : 0 ≤ k
  · rw [if_pos h0, List.getElem?_eq_none (by omega)]
    rfl
  · rw [if_neg h0]
    rfl

theorem partitionLoop_exit (a : List Hash) (l r : Int) (fuel : Nat) (hl : 0 ≤ l) (hlr : l < r)
    (hr : r < a.length) (hf : 2 * (r - l).toNat + 4 ≤ fuel) :
    ∃ a1 i j, partitionLoop (keyAt a ((l + r).tdiv 2)) fuel a l r = .ok (a1, i, j) ∧
      l < i ∧ j < r ∧ j < i ∧ a1.length = a.length := by
  obtain ⟨a1, i, j, e, inv, hji⟩ :=
    partitionLoop_spec a l r (keyAt a ((l + r).tdiv 2)) hl hr hlr fuel a l r
      (partInv_init a l r hl hlr) (by omega)
  have hli := inv.li
  have hjr := inv.jr
  have hends : l < i ∧ j < r := by
    by_contra hc
    obtain ⟨m, hm1, hm2, _⟩ := inv.piv (by omega)
    omega
  exact ⟨a1, i, j, e, hends.1, hends.2, hji, inv.frame.len⟩

theorem quicksort_out_of_range (a : List Hash) (l r : Int) (fuel : Nat) (hlr : l < r)
    (hout : l < 0 ∨ (a.length : Int) ≤ r) (hf : a.length + 3 ≤ fuel) :
    quicksort fuel a l r = .error Fault.indexOutOfRange := by
  obtain ⟨f, rfl⟩ : ∃ f, fuel = f + 1 := ⟨fuel - 1, by omega⟩
  rw [quicksort, if_pos hlr]
  by_cases hm : 0 ≤ (l + r).tdiv 2 ∧ (l + r).tdiv 2 < a.length
  · rw [readAt_ok a _ hm.1 hm.2, ok_bind]
    obtain ⟨f1, rfl⟩ : ∃ f1, f = f1 + 1 := ⟨f - 1, by omega⟩
    simp only []
    rw [partitionLoop, if_pos (le_of_lt hlr)]
    by_cases hl : l < 0
    · obtain ⟨f2, rfl⟩ : ∃ f2, f1 = f2 + 1 := ⟨f1 - 1, by omega⟩
      rw [scanUp, readAt_error a l (Or.inl hl)]
      rfl
    · have hr : (a.length : Int) ≤ r := by omega
      have hmid : (l + r).tdiv 2 = (l + r) / 2 := Int.tdiv_eq_ediv (by omega) (by norm_num)
      obtain ⟨i1, e1, _⟩ := scanUp_spec a (elemAt a ((l + r).tdiv 2)).Big ((l + r).tdiv 2)
        hm.2 (le_refl _) f1 l (by omega) (by rw [hmid]; omega) (by omega)
      obtain ⟨f2, rfl⟩ : ∃ f2, f1 = f2 + 1 := ⟨f1 - 1, by omega⟩
      rw [e1, ok_bind, scanDown, readAt_error a r (Or.inr hr)]
      rfl
  · rw [readAt_error a _ (by omega)]
    rfl

/-- C13: `quicksort` terminates on every input. For every list and every fuel of at
least `3 * len + 5`: no call `quicksort(list, l, r)` runs out of fuel, whatever `l` and
`r`; for `0 ≤ l < r < len` the partition loop returns with `i > l` and `j < r`, so both
recursive calls are on strictly shorter ranges, and the call returns; `SortHashes` and
`UniqueHashes` return. -/
theorem quicksort_terminates (a : List Hash) (fuel : Nat) (hf : 3 * a.length + 5 ≤ fuel) :
    (∀ l r : Int, quicksort fuel a l r ≠ .error Fault.outOfFuel) ∧
    (∀ l r : Int, 0 ≤ l → l < r → r < a.length →
      (∃ a1 i j, partitionLoop (keyAt a ((l + r).tdiv 2)) (fuel - 1) a l r = .ok (a1, i, j) ∧
        l < i ∧ j < r ∧ (j - l).toNat < (r - l).toNat ∧ (r - i).toNat < (r - l).toNat) ∧
      ∃ out, quicksort fuel a l r = .ok out) ∧
    (∃ out, SortHashes fuel a = .ok out) ∧
    (∃ b, UniqueHashes fuel a = .ok b) := by
  refine ⟨?_, ?_, ?_, ?_⟩
  · intro l r
    by_cases hlr : l < r
    · by_cases hin : 0 ≤ l ∧ r < a.length
      · obtain ⟨out, e, _⟩ := quicksort_spec fuel a l r (fun _ => hin) (by omega)
        rw [e]
        exact fun h => by cases h
      · rw [quicksort_out_of_range a l r fuel hlr (by omega) (by omega)]
        exact fun h => by cases h
    · obtain ⟨out, e, _⟩ := quicksort_spec fuel a l r (fun h => absurd h hlr) (by omega)
      rw [e]
      exact fun h => by cases h
  · intro l r hl hlr hr
    obtain ⟨a1, i, j, e, h1, h2, _, _⟩ :=
      partitionLoop_exit a l r (fuel - 1) hl hlr hr (by omega)
    obtain ⟨out, e2, _⟩ := quicksort_spec fuel a l r (fun _ => ⟨hl, hr⟩) (by omega)
    exact ⟨⟨a1, i, j, e, h1, h2, by omega, by omega⟩, out, e2⟩
  · obtain ⟨out, e, _⟩ := SortHashes_spec fuel a hf
    exact ⟨out, e⟩
  · exact ⟨_, UniqueHashes_spec fuel a hf⟩

theorem quicksort_terminates_witness :
    3 * [Hash.ofByte 2, Hash.ofByte 2, Hash.ofByte 1].length + 5 ≤ 14 ∧
    (∀ l r : Int, quicksort 14 [Hash.ofByte 2, Hash.ofByte 2, Hash.ofByte 1] l r ≠
      .error Fault.outOfFuel) ∧
    (∀ l r : Int, 0 ≤ l → l < r → r < [Hash.ofByte 2, Hash.ofByte 2, Hash.ofByte 1].length →
      (∃ a1 i j, partitionLoop (keyAt [Hash.ofByte 2, Hash.ofByte 2, Hash.ofByte 1]
          ((l + r).tdiv 2)) (14 - 1) [Hash.ofByte 2, Hash.ofByte 2, Hash.ofByte 1] l r =
          .ok (a1, i, j) ∧
        l < i ∧ j < r ∧ (j - l).toNat < (r - l).toNat ∧ (r - i).toNat < (r - l).toNat) ∧
      ∃ out, quicksort 14 [Hash.ofByte 2, Hash.ofByte 2, Hash.ofByte 1] l r = .ok out) ∧
    (∃ out, SortHashes 14 [Hash.ofByte 2, Hash.ofByte 2, Hash.ofByte 1] = .ok out) ∧
    (∃ b, UniqueHashes 14 [Hash.ofByte 2, Hash.ofByte 2, Hash.ofByte 1] = .ok b) :=
  ⟨by decide,
    quicksort_terminates [Hash.ofByte 2, Hash.ofByte 2, Hash.ofByte 1] 14 (by decide)⟩

/-! ## Index safety -/

theorem scanUpT_erase (a : List Hash) (p : Nat) :
    ∀ (fuel : Nat) (i : Int), Except.map Prod.fst (scanUpT a p fuel i) = scanUp a p fuel i := by
  intro fuel
  induction fuel with
  | zero => intro i; rfl
  | succ f ih =>
    intro i
    rw [scanUpT, scanUp]
    cases readAt a i with
    | error e => rfl
    | ok h =>
      rw [ok_bind, ok_bind]
      by_cases hc : Cmp h.Big p = -1
      · rw [if_pos hc, if_pos hc, ← ih (i + 1)]
        cases scanUpT a p f (i + 1) <;> rfl
      · rw [if_neg hc, if_neg hc]
        rfl

theorem scanDownT_erase (a : List Hash) (p : Nat) :
    ∀ (fuel : Nat) (j : Int),
      Except.map Prod.fst (scanDownT a p fuel j) = scanDown a p fuel j := by
  intro fuel
  induction fuel with
  | zero => intro j; rfl
  | succ f ih =>
    intro j
    rw [scanDownT, scanDown]
    cases readAt a j with
    | error e => rfl
    | ok h =>
      rw [ok_bind, ok_bind]
      by_cases hc : Cmp h.Big p = 1
      · rw [if_pos hc, if_pos hc, ← ih (j - 1)]
        cases scanDownT a p f (j - 1) <;> rfl
      · rw [if_neg hc, if_neg hc]
        rfl

theorem partitionLoopT_erase (p : Nat) :
    ∀ (fuel : Nat) (a : List Hash) (i j : Int),
      Except.map Prod.fst (partitionLoopT p fuel a i j) = partitionLoop p fuel a i j := by
  intro fuel
  induction fuel with
  | zero => intro a i j; rfl
  | succ f ih =>
    intro a i j
    rw [partitionLoopT, partitionLoop]
    by_cases hij : i ≤ j
    · rw [if_pos hij, if_pos hij, ← scanUpT_erase a p f i, ← scanDownT_erase a p f j]
      cases scanUpT a p f i with
      | error e => rfl
      | ok ri =>
        cases scanDownT a p f j with
        | error e => rfl
        | ok rj =>
          simp only [Except.map, ok_bind]
          by_cases h1 : ri.1 ≤ rj.1
          · rw [if_pos h1, if_pos h1]
            cases readAt a ri.1 with
            | error e => rfl
            | ok tmp =>
              cases readAt a rj.1 with
              | error e => rfl
              | ok hj =>
                rw [ok_bind, ok_bind, ok_bind, ok_bind]
                cases writeAt a ri.1 hj with
                | error e => rfl
                | ok a1 =>
                  rw [ok_bind, ok_bind]
                  cases writeAt a1 rj.1 tmp with
                  | error e => rfl
                  | ok a2 =>
                    rw [ok_bind, ok_bind, ← ih a2 (ri.1 + 1) (rj.1 - 1)]
                    cases partitionLoopT p f a2 (ri.1 + 1) (rj.1 - 1) <;> rfl
          · rw [if_neg h1, if_neg h1, ← ih a ri.1 rj.1]
            cases partitionLoopT p f a ri.1 rj.1 <;> rfl
    · rw [if_neg hij, if_neg hij]
      rfl

theorem quicksortT_erase :
    ∀ (fuel : Nat) (a : List Hash) (l r : Int),
      Except.map Prod.fst (quicksortT fuel a l r) = quicksort fuel a l r := by
  intro fuel
  induction fuel with
  | zero => intro a l r; rfl
  | succ f ih =>
    intro a l r
    rw [quicksortT, quicksort]
    by_cases hlr : l < r
    · rw [if_pos hlr, if_pos hlr]
      cases readAt a ((l + r).tdiv 2) with
      | error e => rfl
      | ok h =>
        rw [ok_bind, ok_bind]
        simp only []
        rw [← partitionLoopT_erase h.Big f a l r]
        cases partitionLoopT h.Big f a l r with
        | error e => rfl
        | ok part =>
          obtain ⟨⟨a1, i, j⟩, tr⟩ := part
          simp only [Except.map, ok_bind]
          have hleft : Except.map Prod.fst
              (if l < j then quicksortT f a1 l j else pure (a1, [])) =
              (if l < j then quicksort f a1 l j else pure a1) := by
            by_cases h1 : l < j
            · rw [if_pos h1, if_pos h1, ih]
            · rw [if_neg h1, if_neg h1]
              rfl
          rw [← hleft]
          cases (if l < j then quicksortT f a1 l j else pure (a1, [])) with
          | error e => rfl
          | ok left =>
            simp only [Except.map, ok_bind]
            have hright : Except.map Prod.fst
                (if i < r then quicksortT f left.1 i r else pure (left.1, [])) =
                (if i < r then quicksort f left.1 i r else pure left.1) := by
              by_cases h2 : i < r
              · rw [if_pos h2, if_pos h2, ih]
              · rw [if_neg h2, if_neg h2]
                rfl
            rw [← hright]
            cases (if i < r then quicksortT f left.1 i r else pure (left.1, [])) <;> rfl
    · rw [if_neg hlr, if_neg hlr]
      rfl

theorem scanUpT_of_scanUp (a : List Hash) (p : Nat) :
    ∀ (fuel : Nat) (i i1 : Int), scanUp a p fuel i = .ok i1 →
      ∃ tr, scanUpT a p fuel i = .ok (i1, tr) ∧ i ≤ i1 ∧ ∀ x ∈ tr, i ≤ x ∧ x ≤ i1 := by
  intro fuel
  induction fuel with
  | zero => intro i i1 h; cases h
  | succ f ih =>
    intro i i1 h
    rw [scanUp] at h
    rw [scanUpT]
    cases hr : readAt a i with
    | error e => rw [hr] at h; cases h
    | ok v =>
      rw [hr, ok_bind] at h
      rw [ok_bind]
      by_cases hc : Cmp v.Big p = -1
      · rw [if_pos hc] at h
        rw [if_pos hc]
        obtain ⟨tr, e, hle, htr⟩ := ih (i + 1) i1 h
        refine ⟨i :: tr, by rw [e]; rfl, by omega, ?_⟩
        intro x hx
        rcases List.mem_cons.mp hx with rfl | hx
        · omega
        · have := htr x hx
          omega
      · rw [if_neg hc] at h
        rw [if_neg hc]
        cases h
        exact ⟨[i], rfl, le_refl _, fun x hx => by simp at hx; omega⟩

theorem scanDownT_of_scanDown (a : List Hash) (p : Nat) :
    ∀ (fuel : Nat) (j j1 : Int), scanDown a p fuel j = .ok j1 →
      ∃ tr, scanDownT a p fuel j = .ok (j1, tr) ∧ j1 ≤ j ∧ ∀ x ∈ tr, j1 ≤ x ∧ x ≤ j := by
  intro fuel
  induction fuel with
  | zero => intro j j1 h; cases h
  | succ f ih =>
    intro j j1 h
    rw [scanDown] at h
    rw [scanDownT]
    cases hr : readAt a j with
    | error e => rw [hr] at h; cases h
    | ok v =>
      rw [hr, ok_bind] at h
      rw [ok_bind]
      by_cases hc : Cmp v.Big p = 1
      · rw [if_pos hc] at h
        rw [if_pos hc]
        obtain ⟨tr, e, hle, htr⟩ := ih (j - 1) j1 h
        refine ⟨j :: tr, by rw [e]; rfl, by omega, ?_⟩
        intro x hx
        rcases List.mem_cons.mp hx with rfl | hx
        · omega
        · have := htr x hx
          omega
      · rw [if_neg hc] at h
        rw [if_neg hc]
        cases h
        exact ⟨[j], rfl, le_refl _, fun x hx => by simp at hx; omega⟩

theorem partitionLoopT_spec (a0 : List Hash) (l r : Int) (p : Nat) (hl : 0 ≤ l)
    (hr : r < a0.length) (hlr : l < r) :
    ∀ (fuel : Nat) (a : List Hash) (i j : Int), PartInv a0 a l r p i j →
      (r - l + 2).toNat + (j - i + 2).toNat ≤ fuel →
      ∃ a1 i1 j1 tr, partitionLoopT p fuel a i j = .ok ((a1, i1, j1), tr) ∧
        PartInv a0 a1 l r p i1 j1 ∧ j1 < i1 ∧ ∀ x ∈ tr, l ≤ x ∧ x ≤ r := by
  intro fuel
  induction fuel with
  | zero => intro a i j _ h; omega
  | succ f ih =>
    intro a i j inv hf
    have hlen := inv.frame.len
    have hli := inv.li
    have hjr := inv.jr
    rw [partitionLoopT]
    by_cases hij : i ≤ j
    · obtain ⟨⟨ku, hku1, hku2, hku3⟩, ⟨kd, hkd1, hkd2, hkd3⟩⟩ := inv.sent hij
      obtain ⟨i1, e1, hi1a, hi1b, hi1c, hi1d⟩ :=
        scanUp_spec a p ku (by omega) hku3 f i (by omega) hku1 (by omega)
      obtain ⟨j1, e2, hj1a, hj1b, hj1c, hj1d⟩ :=
        scanDown_spec a p kd (by omega) hkd3 f j (by omega) hkd2 (by omega)
      obtain ⟨t1, eT1, _, ht1⟩ := scanUpT_of_scanUp a p f i i1 e1
      obtain ⟨t2, eT2, _, ht2⟩ := scanDownT_of_scanDown a p f j j1 e2
      rw [if_pos hij, eT1, ok_bind, eT2, ok_bind]
      simp only []
      have hb1 : ∀ x ∈ t1, l ≤ x ∧ x ≤ r := fun x hx => by
        have := ht1 x hx
        omega
      have hb2 : ∀ x ∈ t2, l ≤ x ∧ x ≤ r := fun x hx => by
        have := ht2 x hx
        omega
      by_cases hij1 : i1 ≤ j1
      · rw [if_pos hij1, readAt_ok a i1 (by omega) (by omega), ok_bind,
          readAt_ok a j1 (by omega) (by omega), ok_bind,
          writeAt_ok a i1 _ (by omega) (by omega), ok_bind,
          writeAt_ok _ j1 _ (by omega) (by simp; omega), ok_bind]
        obtain ⟨a1, i2, j2, t3, e3, inv3, hji, ht3⟩ := ih (swapAt a i1 j1) (i1 + 1) (j1 - 1)
          (partInv_swap a0 a l r p i j i1 j1 hl hr inv hi1a hj1a hij1 hi1c hi1d hj1c hj1d)
          (by omega)
        have e3a : partitionLoopT p f ((a.set i1.toNat (elemAt a j1)).set j1.toNat (elemAt a i1))
            (i1 + 1) (j1 - 1) = .ok ((a1, i2, j2), t3) := e3
        rw [e3a, ok_bind]
        refine ⟨a1, i2, j2, _, rfl, inv3, hji, ?_⟩
        intro x hx
        simp only [List.mem_append, List.mem_cons, List.mem_singleton, List.not_mem_nil,
          or_false] at hx
        rcases hx with ((h | h) | h) | h
        · exact hb1 x h
        · exact hb2 x h
        · omega
        · exact ht3 x h
      · rw [if_neg hij1]
        obtain ⟨a1, i2, j2, t3, e3, inv3, hji, ht3⟩ := ih a i1 j1
          (partInv_stop a0 a l r p i j i1 j1 inv hi1a hj1a (by omega) hi1c hj1c)
          (by omega)
        rw [e3, ok_bind]
        refine ⟨a1, i2, j2, _, rfl, inv3, hji, ?_⟩
        intro x hx
        simp only [List.mem_append] at hx
        rcases hx with (h | h) | h
        · exact hb1 x h
        · exact hb2 x h
        · exact ht3 x h
    · rw [if_neg hij]
      exact ⟨a, i, j, [], rfl, inv, by omega, fun x hx => by simp at hx⟩

theorem quicksortT_spec :
    ∀ (fuel : Nat) (a : List Hash) (l r : Int), (l < r → 0 ≤ l ∧ r < a.length) →
      3 * (r - l).toNat + 5 ≤ fuel →
      ∃ a1 tr, quicksortT fuel a l r = .ok (a1, tr) ∧ a1.length = a.length ∧
        (l < r → ∀ x ∈ tr, l ≤ x ∧ x ≤ r) ∧ (¬ l < r → tr = []) := by
  intro fuel
  induction fuel with
  | zero => intro a l r _ h; omega
  | succ f ih =>
    intro a l r hb hf
    rw [quicksortT]
    by_cases hlr : l < r
    · obtain ⟨hl, hr⟩ := hb hlr
      have hm : (l + r).tdiv 2 = (l + r) / 2 := Int.tdiv_eq_ediv (by omega) (by norm_num)
      rw [if_pos hlr, readAt_ok a _ (by rw [hm]; omega) (by rw [hm]; omega), ok_bind]
      obtain ⟨a1, i, j, t0, e1, inv, hji, ht0⟩ :=
        partitionLoopT_spec a l r (keyAt a ((l + r).tdiv 2)) hl hr hlr f a l r
          (partInv_init a l r hl hlr) (by omega)
      have hli := inv.li
      have hjr := inv.jr
      have hlen1 := inv.frame.len
      have hends : l < i ∧ j < r := by
        by_contra hc
        obtain ⟨m, hm1, hm2, _⟩ := inv.piv (by omega)
        omega
      simp only [keyAt] at e1 ⊢
      rw [e1, ok_bind]
      simp only []
      obtain ⟨a2, t2, e2, hlen2, hb2⟩ : ∃ a2 t2,
          (if l < j then quicksortT f a1 l j else pure (a1, [])) = .ok (a2, t2) ∧
          a2.length = a1.length ∧ ∀ x ∈ t2, l ≤ x ∧ x ≤ r := by
        by_cases h : l < j
        · rw [if_pos h]
          obtain ⟨a2, t2, e, hl2, ht, _⟩ := ih a1 l j (fun _ => ⟨hl, by omega⟩) (by omega)
          exact ⟨a2, t2, e, hl2, fun x hx => by have := ht h x hx; omega⟩
        · rw [if_neg h]
          exact ⟨a1, [], rfl, rfl, fun x hx => by simp at hx⟩
      rw [e2, ok_bind]
      simp only []
      obtain ⟨a3, t3, e3, hlen3, hb3⟩ : ∃ a3 t3,
          (if i < r then quicksortT f a2 i r else pure (a2, [])) = .ok (a3, t3) ∧
          a3.length = a2.length ∧ ∀ x ∈ t3, l ≤ x ∧ x ≤ r := by
        by_cases h : i < r
        · rw [if_pos h]
          obtain ⟨a3, t3, e, hl3, ht, _⟩ := ih a2 i r (fun _ => ⟨by omega, by omega⟩) (by omega)
          exact ⟨a3, t3, e, hl3, fun x hx => by have := ht h x hx; omega⟩
        · rw [if_neg h]
          exact ⟨a2, [], rfl, rfl, fun x hx => by simp at hx⟩
      rw [e3, ok_bind]
      refine ⟨a3, _, rfl, by omega, ?_, fun h => absurd hlr h⟩
      intro _ x hx
      simp only [List.mem_append, List.mem_singleton] at hx
      rcases hx with ((h | h) | h) | h
      · rw [h, hm]
        omega
      · exact ht0 x h
      · exact hb2 x h
      · exact hb3 x h
    · rw [if_neg hlr]
      exact ⟨a, [], rfl, rfl, fun h => absurd h hlr, fun _ => rfl⟩

/-- C12: index safety of `quicksort`. For every list, every `0 ≤ l ≤ r < len` and every
fuel of at least `3 * len + 5`: the call `quicksort(list, l, r)` returns, every index it
reads or writes, in its recursive calls too, lies in `l..r` (so the scans never leave
the slice), the call with the record of accesses returns the same slice as the call
without, and every element outside `l..r` is left as it was. On the empty list
`SortHashes` accesses nothing. -/
theorem quicksort_index_safety (a : List Hash) (l r : Int) (fuel : Nat) (hl : 0 ≤ l)
    (hlr : l ≤ r) (hr : r < a.length) (hf : 3 * a.length + 5 ≤ fuel) :
    (∃ out tr, quicksortT fuel a l r = .ok (out, tr) ∧ quicksort fuel a l r = .ok out ∧
      (∀ x ∈ tr, l ≤ x ∧ x ≤ r) ∧ out.length = a.length ∧
      ∀ k : Int, 0 ≤ k → (k < l ∨ r < k) → elemAt out k = elemAt a k) ∧
    SortHashesT fuel [] = .ok ([], []) ∧ SortHashes fuel [] = .ok [] := by
  refine ⟨?_, ?_, ?_⟩
  · obtain ⟨out, tr, e, hlen, htr, hnil⟩ :=
      quicksortT_spec fuel a l r (fun _ => ⟨hl, hr⟩) (by omega)
    obtain ⟨out1, e1, F, _⟩ := quicksort_spec fuel a l r (fun _ => ⟨hl, hr⟩) (by omega)
    have he : quicksort fuel a l r = .ok out := by
      rw [← quicksortT_erase fuel a l r, e]
      rfl
    have hout : out1 = out := by
      rw [e1] at he
      cases he
      rfl
    subst hout
    refine ⟨out1, tr, e, he, ?_, hlen, F.out⟩
    intro x hx
    by_cases h : l < r
    · exact htr h x hx
    · rw [hnil h] at hx
      simp at hx
  · obtain ⟨f, rfl⟩ : ∃ f, fuel = f + 1 := ⟨fuel - 1, by omega⟩
    rfl
  · obtain ⟨f, rfl⟩ : ∃ f, fuel = f + 1 := ⟨fuel - 1, by omega⟩
    rfl

theorem quicksort_index_safety_witness :
    (0 : Int) ≤ 1 ∧ (1 : Int) ≤ 3 ∧
    (3 : Int) < [Hash.ofByte 9, Hash.ofByte 3, Hash.ofByte 1, Hash.ofByte 2, Hash.ofByte 0].length ∧
    3 * [Hash.ofByte 9, Hash.ofByte 3, Hash.ofByte 1, Hash.ofByte 2, Hash.ofByte 0].length + 5 ≤
      20 ∧
    (∃ out tr,
      quicksortT 20 [Hash.ofByte 9, Hash.ofByte 3, Hash.ofByte 1, Hash.ofByte 2, Hash.ofByte 0]
        1 3 = .ok (out, tr) ∧
      quicksort 20 [Hash.ofByte 9, Hash.ofByte 3, Hash.ofByte 1, Hash.ofByte 2, Hash.ofByte 0]
        1 3 = .ok out ∧
      (∀ x ∈ tr, 1 ≤ x ∧ x ≤ 3) ∧
      out.length =
        [Hash.ofByte 9, Hash.ofByte 3, Hash.ofByte 1, Hash.ofByte 2, Hash.ofByte 0].length ∧
      ∀ k : Int, 0 ≤ k → (k < 1 ∨ 3 < k) → elemAt out k =
        elemAt [Hash.ofByte 9, Hash.ofByte 3, Hash.ofByte 1, Hash.ofByte 2, Hash.ofByte 0] k) ∧
    SortHashesT 20 [] = .ok ([], []) ∧ SortHashes 20 [] = .ok [] :=
  ⟨by decide, by decide, by decide, by decide,
    quicksort_index_safety
      [Hash.ofByte 9, Hash.ofByte 3, Hash.ofByte 1, Hash.ofByte 2, Hash.ofByte 0] 1 3 20
      (by decide) (by decide) (by decide) (by decide)⟩

end Bls
